import Mathlib

/-!
# hostpath-provisioner: a shallow embedding and its checked properties

The program is one Go file, `hostpath-provisioner.go`.  Its two operations,
`Provision` and `Delete`, compute paths with `path.Join`, read two maps and
call `os.MkdirAll` / `os.RemoveAll`.  This file embeds

* the Go library function `path.Join` (with `path.Clean`) on which both
  operations rely, character by character (the two functions only compare
  with `/` and `.`, so characters and bytes behave alike);
* the part of the operating system the operations touch: a directory tree,
  a working directory, a device fault and the log of `os` calls made;
* `Provision`, `Delete` and the server-version test of `main`, statement by
  statement; the `glog` lines write a log record and are left out;

and then states and proves the properties of the specification, one block
per claim: for a claim that does not hold as stated, the input on which it
fails, then the statement that holds, then that statement at an example.
-/

namespace HostPath

/-! ## `path.Clean` and `path.Join` (Go package `path`) -/

/-- The separator that `path.Clean` writes before a real path element:
`if rooted && out.w != 1 || !rooted && out.w != 0 { out.append('/') }`. -/
def addSlash (rooted : Bool) (out : List Char) : List Char :=
  if (rooted ∧ out.length ≠ 1) ∨ (¬ rooted ∧ out.length ≠ 0) then out ++ ['/'] else out

/-- The inner loop of the `..` case of `path.Clean`, run after the first
`out.w--`: `for out.w > dotdot && out.index(out.w) != '/' { out.w-- }`.
`buf` is the buffer content before the truncation, the argument is `out.w`,
the result the final `out.w`. -/
def backtrack (buf : List Char) (dotdot : Nat) : Nat → Nat
  | 0 => 0
  | w + 1 =>
    if dotdot < w + 1 ∧ buf.getD (w + 1) '/' ≠ '/' then backtrack buf dotdot w else w + 1

/-- The main loop `for r < n { switch ... }` of `path.Clean`.  The list is
the unread input `path[r:]`, `out` the written part of the buffer,
`dotdot` the index below which the buffer may not be cut.  The flag
`copying` is true while the loop `for ; r < n && path[r] != '/'; r++`
of the default case (copy a real element) is running. -/
def cleanLoop (rooted : Bool) : Bool → List Char → List Char → Nat → List Char
  | _, [], out, _ => out
  | true, c :: rest, out, dotdot =>
    if c = '/' then cleanLoop rooted false rest out dotdot
    else cleanLoop rooted true rest (out ++ [c]) dotdot
  | false, [c], out, dotdot =>
    if c = '/' then cleanLoop rooted false [] out dotdot
    else if c = '.' then cleanLoop rooted false [] out dotdot
    else cleanLoop rooted true [] (addSlash rooted out ++ [c]) dotdot
  | false, c :: d :: rest, out, dotdot =>
    if c = '/' then cleanLoop rooted false (d :: rest) out dotdot
    else if c = '.' ∧ d = '/' then cleanLoop rooted false (d :: rest) out dotdot
    else if c = '.' ∧ d = '.' ∧ (rest = [] ∨ rest.head? = some '/') then
      if dotdot < out.length then
        cleanLoop rooted false rest
          (out.take (backtrack out dotdot (out.length - 1))) dotdot
      else if ¬ rooted then
        cleanLoop rooted false rest
          ((if 0 < out.length then out ++ ['/'] else out) ++ ['.', '.'])
          ((if 0 < out.length then out ++ ['/'] else out) ++ ['.', '.']).length
      else cleanLoop rooted false rest out dotdot
    else cleanLoop rooted true (d :: rest) (addSlash rooted out ++ [c]) dotdot

/-- Go `path.Clean` on the characters of the path. -/
def cleanChars (path : List Char) : List Char :=
  if path = [] then ['.']
  else
    let rooted : Bool := path.head? = some '/'
    let out := if rooted then cleanLoop true false (path.drop 1) ['/'] 1
               else cleanLoop false false path [] 0
    if out.length = 0 then ['.'] else out

/-- Go `path.Clean`. -/
def Clean (path : String) : String := String.mk (cleanChars path.data)

/-- Go `strings.Join(elems, "/")` on character lists. -/
def joinSlash : List String → List Char
  | [] => []
  | [e] => e.data
  | e :: f :: rest => e.data ++ '/' :: joinSlash (f :: rest)

/-- Go `path.Join`: empty elements at the front are skipped, the others are
joined with slashes and the result is cleaned; `""` when all are empty. -/
def Join : List String → String
  | [] => ""
  | e :: rest => if e = "" then Join rest else String.mk (cleanChars (joinSlash (e :: rest)))

/-! ## Data model

The pointers to the request's claim and to the volume are modelled by the
values they point to (the controller hands over non-nil claims and volumes);
the pointer to the host-path source inside a volume is an `Option`.  Go maps
are association lists: `m[k]` is
`lookupD m k`, the comma-ok form `v, ok := m[k]` is `List.lookup k m`. -/

/-- A Go `map[string]string`. -/
abbrev StringMap := List (String × String)

/-- Go `m[k]` on a `map[string]string`: the zero value `""` for a missing key. -/
def lookupD (m : StringMap) (k : String) : String := (m.lookup k).getD ""

/-- The Go `error` values the program returns.  `errorString` is what
`fmt.Errorf` and `errors.New` build, `IgnoredError` is
`*controller.IgnoredError`, `apiError` an error of the Kubernetes client and
`PathError` the `*os.PathError` of a failed file-system call. -/
inductive GoError where
  | errorString (msg : String)
  | IgnoredError (Reason : String)
  | apiError (msg : String)
  | PathError (Op Path Err : String)
  deriving DecidableEq, Repr

/-- The type test the controller makes: `_, ok := err.(*controller.IgnoredError)`. -/
def GoError.isIgnored : GoError → Bool
  | .IgnoredError _ => true
  | _ => false

/-- Equality of results is decidable, so that results can be computed. -/
instance instDecidableEqExcept {ε α : Type} [DecidableEq ε] [DecidableEq α] :
    DecidableEq (Except ε α)
  | .ok a, .ok b => if h : a = b then isTrue (by rw [h]) else isFalse (by intro h1; cases h1; exact h rfl)
  | .error a, .error b =>
    if h : a = b then isTrue (by rw [h]) else isFalse (by intro h1; cases h1; exact h rfl)
  | .ok _, .error _ => isFalse (by intro h; cases h)
  | .error _, .ok _ => isFalse (by intro h; cases h)

/-- A `resource.Quantity`; the Go zero value is `default`. -/
structure Quantity where
  value : Int
  format : String
  deriving DecidableEq, Repr, Inhabited

/-- The fields of `v1.Node` the program reads. -/
structure Node where
  Annotations : StringMap
  deriving DecidableEq, Repr

/-- The call `clientset.CoreV1().Nodes().Get(name, ...)`: the node, or the
message of the client error. -/
structure Clientset where
  NodesGet : String → Except String Node

/-- The fields of `v1.PersistentVolumeClaim` the program reads:
`Annotations`, `Spec.AccessModes` and `Spec.Resources.Requests`. -/
structure PersistentVolumeClaim where
  Annotations : StringMap
  AccessModes : List String
  Requests : List (String × Quantity)
  deriving DecidableEq, Repr

/-- The fields of `controller.VolumeOptions` the program reads. -/
structure VolumeOptions where
  PersistentVolumeReclaimPolicy : String
  PVName : String
  PVC : PersistentVolumeClaim
  Parameters : StringMap
  deriving DecidableEq, Repr

/-- The struct `v1.HostPathVolumeSource`. -/
structure HostPathVolumeSource where
  Path : String
  deriving DecidableEq, Repr

/-- The fields of `v1.PersistentVolume` the program writes and reads;
`HostPath` is the pointer `Spec.PersistentVolumeSource.HostPath`, `none` when
it is nil. -/
structure PersistentVolume where
  Name : String
  Annotations : StringMap
  PersistentVolumeReclaimPolicy : String
  AccessModes : List String
  Capacity : List (String × Quantity)
  HostPath : Option HostPathVolumeSource
  deriving DecidableEq, Repr

/-- How a call of a method ends: it returns a value, or the Go runtime
panics. -/
inductive Outcome (α : Type) where
  | returned (value : α)
  | panicked (msg : String)
  deriving DecidableEq, Repr

/-- The receiver `hostPathProvisioner`. -/
structure hostPathProvisioner where
  nodeName : String
  rootPath : String
  clientset : Clientset

def storageClassParamName : String := "hostPathName"

/-- The constant `nodeAnnotationFormat = "hostpath.nailgun.name/%v"` applied
to a name with `fmt.Sprintf`. -/
def nodeAnnotationFormat (name : String) : String := "hostpath.nailgun.name/" ++ name

/-- The claim annotation that names the node asked for. -/
def pvcAnnotation : String := "nailgun.name/hostpath-node"

/-- The constant `v1.ResourceStorage`. -/
def ResourceStorage : String := "storage"

/-! ## The operating system seen by the program

`os.MkdirAll` and `os.RemoveAll` act on a directory tree.  The tree maps an
absolute location (the list of element names from the root directory) to
what is there.  A path string is resolved by the kernel's rules with no
symbolic links: relative paths start at the working directory, an empty or
`.` element stays in the directory reached, `..` goes to its parent. -/

inductive Kind where
  | dir
  | file
  deriving DecidableEq, Repr

/-- A call of package `os` made by the program, with its path argument. -/
inductive Call where
  | MkdirAll (path : String)
  | RemoveAll (path : String)
  deriving DecidableEq, Repr

/-- The path argument of a call. -/
def Call.path : Call → String
  | .MkdirAll p => p
  | .RemoveAll p => p

/-- The state of the operating system: the directory tree, the working
directory of the process, the error (if any) with which the device refuses
every change (`EROFS`, `EACCES`, `EIO`, ...), and the log of the `os` calls
made so far. -/
structure OS where
  tree : List String → Option Kind
  cwd : List String
  fault : Option String
  log : List Call

/-- The elements of a path: the pieces between slashes. -/
def splitSlash : List Char → List (List Char)
  | [] => [[]]
  | c :: rest =>
    if c = '/' then [] :: splitSlash rest
    else match splitSlash rest with
      | [] => [[c]]
      | seg :: segs => (c :: seg) :: segs

/-- The elements of a path string. -/
def elements (path : String) : List String := (splitSlash path.data).map String.mk

/-- Path resolution from the directory `cur` along the given elements. -/
def walk : List String → List String → List String
  | cur, [] => cur
  | cur, e :: rest =>
    if e = "" ∨ e = "." then walk cur rest
    else if e = ".." then walk cur.dropLast rest
    else walk (cur ++ [e]) rest

/-- The elements of a path that resolution does not skip: neither empty
nor `.`. -/
def realElements (path : String) : List String :=
  (elements path).filter (fun e => e ≠ "" ∧ e ≠ ".")

/-- The location a path string names. -/
def OS.resolve (os : OS) (path : String) : List String :=
  walk (if path.data.head? = some '/' then [] else os.cwd) (elements path)

/-- Go `endsWithDot` of package `os`: the path is `.` or ends in `/.`. -/
def endsWithDot (path : String) : Bool :=
  match path.data.reverse with
  | [] => false
  | [c] => decide (c = '.')
  | c :: d :: _ => decide (c = '.') && decide (d = '/')

/-- The last element of a path, trailing slashes left aside; `none` when the
path has slashes only. -/
def lastElement (path : String) : Option String :=
  ((elements path).filter (fun e => e ≠ "")).getLast?

/-- The first loop of Go `splitPath`: all but one leading slash are removed. -/
def dropLeadingSlashes : List Char → List Char
  | c :: d :: rest => if c = '/' ∧ d = '/' then dropLeadingSlashes (d :: rest) else c :: d :: rest
  | path => path

/-- The second loop of Go `splitPath`: the trailing slashes are removed, the
first character is kept. -/
def dropTrailingSlashes : List Char → List Char
  | [] => []
  | c :: rest => c :: (rest.reverse.dropWhile (fun x => x = '/')).reverse

/-- Go `splitPath` of package `os`: the directory and the base name that
`os.RemoveAll` works with. -/
def splitPath (path : String) : String × String :=
  let p := dropTrailingSlashes (dropLeadingSlashes path.data)
  let r := p.dropLast.reverse
  match r.dropWhile (fun x => x ≠ '/') with
  | [] => (".", String.mk p)
  | _ :: dirRev =>
    (String.mk (if dirRev.length = 0 then p.take 1 else dirRev.reverse),
      String.mk (p.drop (dirRev.length + 1)))

/-- The path that `os.RemoveAll` writes into the error of a failed
`unlinkat`: `parentDir + "/" + base`. -/
def unlinkatPath (path : String) : String :=
  (splitPath path).1 ++ "/" ++ (splitPath path).2

/-- A regular file stands on the way to the path: the system calls on the
path fail with `ENOTDIR`.  On a cleaned path, as `path.Join` returns it, no
name comes before a `..`, and the locations above the one the path names are
the directories the kernel walks through. -/
def OS.blocked (os : OS) (path : String) : Bool :=
  (os.resolve path).inits.dropLast.any (fun q => os.tree q = some Kind.file)

/-- Go `os.Stat(path)`, as far as the kind of the entry goes: `none` when the
path names nothing. -/
def OS.Stat (os : OS) (path : String) : Option Kind :=
  if path = "" then none else os.tree (os.resolve path)

/-- The trees of real file systems: the working directory is a directory,
and whatever exists lies in a directory. -/
def OS.wellFormed (os : OS) : Prop :=
  os.tree os.cwd = some Kind.dir ∧
    ∀ (q : List String) (e : String), os.tree (q ++ [e]) ≠ none → os.tree q = some Kind.dir

/-- Go `os.MkdirAll(path, 0777)`: the error if any, and the state after.
A file on the way is `ENOTDIR`; when every directory on the way exists
nothing is done; otherwise the missing ones are created, unless the device
refuses. -/
def OS.MkdirAll (os : OS) (path : String) : Option GoError × OS :=
  let os1 : OS := { os with log := os.log ++ [Call.MkdirAll path] }
  if path = "" then (some (.PathError "mkdir" path "ENOENT"), os1)
  else
    let k := os.resolve path
    if k.inits.any (fun q => os.tree q = some Kind.file) then
      (some (.PathError "mkdir" path "ENOTDIR"), os1)
    else if k.inits.all (fun q => os.tree q = some Kind.dir) then (none, os1)
    else match os.fault with
      | some e => (some (.PathError "mkdir" path e), os1)
      | none =>
        (none, { os1 with tree := fun q => if q.isPrefixOf k then some Kind.dir else os.tree q })

/-- Go `os.RemoveAll(path)` (the implementation with `unlinkat`, on Linux):
the error if any, and the state after.  The empty path is not an error and
nothing is done; a path that is `.` or ends in `/.` is refused with `EINVAL`;
with a regular file on the way the call fails with `ENOTDIR`, from `open` of
the parent directory, or from `unlinkat` when the file is the parent; a path
that names nothing is not an error; otherwise everything at and below the
location is removed, unless the device refuses (the first `unlinkat` fails,
as on a read-only mount, and nothing is removed).  The directory itself stays,
and the call fails, when `rmdir` refuses the last element: the root directory
(`EBUSY`), `..` (`ENOTEMPTY`) and `.` (`EINVAL`). -/
def OS.RemoveAll (os : OS) (path : String) : Option GoError × OS :=
  let os1 : OS := { os with log := os.log ++ [Call.RemoveAll path] }
  if path = "" then (none, os1)
  else if endsWithDot path then (some (.PathError "RemoveAll" path "EINVAL"), os1)
  else
    let k := os.resolve path
    if os.blocked path then
      (if os.tree k.dropLast = some Kind.file then
          some (.PathError "unlinkat" (unlinkatPath path) "ENOTDIR")
        else some (.PathError "open" (splitPath path).1 "ENOTDIR"), os1)
    else match os.tree k with
    | none => (none, os1)
    | some _ =>
      match os.fault with
      | some e => (some (.PathError "unlinkat" (unlinkatPath path) e), os1)
      | none =>
        let emptied : OS :=
          { os1 with tree := fun q => if k.isPrefixOf q ∧ q ≠ k then none else os.tree q }
        match lastElement path with
        | none => (some (.PathError "unlinkat" (unlinkatPath path) "EBUSY"), emptied)
        | some e =>
          if e = ".." then (some (.PathError "unlinkat" (unlinkatPath path) "ENOTEMPTY"), emptied)
          else if e = "." then (some (.PathError "unlinkat" (unlinkatPath path) "EINVAL"), emptied)
          else (none, { os1 with tree := fun q => if k.isPrefixOf q then none else os.tree q })

/-! ## The program -/

/-- Lines 104 to 123 of `Provision`: the descriptor `pv`. -/
def hostPathProvisioner.pv (p : hostPathProvisioner) (options : VolumeOptions)
    (hostPath : String) : PersistentVolume :=
  { Name := options.PVName
    Annotations := [("nodeName", p.nodeName)]
    PersistentVolumeReclaimPolicy := options.PersistentVolumeReclaimPolicy
    AccessModes := options.PVC.AccessModes
    Capacity := [(ResourceStorage, (options.PVC.Requests.lookup ResourceStorage).getD default)]
    HostPath := some { Path := hostPath } }

/-- Lines 95 to 125 of `Provision`: the two joins, `os.MkdirAll` and the
descriptor. -/
def hostPathProvisioner.provisionAt (p : hostPathProvisioner) (options : VolumeOptions)
    (nodeStoragePath : String) (os : OS) : Except GoError PersistentVolume × OS :=
  let hostPath := Join [nodeStoragePath, options.PVName]
  let localPath := Join [p.rootPath, hostPath]
  match os.MkdirAll localPath with
  | (some err, os1) => (.error err, os1)
  | (none, os1) => (.ok (p.pv options hostPath), os1)

/-- The method `(p *hostPathProvisioner) Provision`. -/
def hostPathProvisioner.Provision (p : hostPathProvisioner) (options : VolumeOptions)
    (os : OS) : Except GoError PersistentVolume × OS :=
  let myStorageTypeName := lookupD options.Parameters storageClassParamName
  if myStorageTypeName = "" then
    (.error (.errorString ("Parameter `" ++ storageClassParamName ++
      "` not set for PersistentVolume `" ++ options.PVName ++ "`")), os)
  else
    match p.clientset.NodesGet p.nodeName with
    | .error err => (.error (.apiError err), os)
    | .ok node =>
      let nodeAnnotations := node.Annotations
      let nodeAnnotationName := nodeAnnotationFormat myStorageTypeName
      let nodeStoragePath := lookupD nodeAnnotations nodeAnnotationName
      if nodeStoragePath = "" then
        (.error (.IgnoredError ("no `" ++ nodeAnnotationName ++ "` annotation on this node")), os)
      else
        match options.PVC.Annotations.lookup pvcAnnotation with
        | some requestedNodeName =>
          if requestedNodeName ≠ p.nodeName then
            (.error (.IgnoredError ("PVC requests node `" ++ requestedNodeName ++ "`")), os)
          else p.provisionAt options nodeStoragePath os
        | none => p.provisionAt options nodeStoragePath os

/-- The method `(p *hostPathProvisioner) Delete`: how the call ends (the
error returned, if any, or the panic of line 137 on a nil host-path source),
and the state after. -/
def hostPathProvisioner.Delete (p : hostPathProvisioner) (volume : PersistentVolume)
    (os : OS) : Outcome (Option GoError) × OS :=
  match volume.Annotations.lookup "nodeName" with
  | none => (.returned (some (.errorString "nodeName annotation not found on PV")), os)
  | some ann =>
    if ann ≠ p.nodeName then
      (.returned (some (.IgnoredError "nodeName annotation on PV does not match ours")), os)
    else
      match volume.HostPath with
      | none =>
        (.panicked "runtime error: invalid memory address or nil pointer dereference", os)
      | some source =>
        let hostPath := source.Path
        let localPath := Join [p.rootPath, hostPath]
        match os.RemoveAll localPath with
        | (some err, os1) => (.returned (some err), os1)
        | (none, os1) => (.returned none, os1)

/-- The local path of a host path, `path.Join(p.rootPath, hostPath)`, as both
methods compute it. -/
abbrev hostPathProvisioner.localPath (p : hostPathProvisioner) (hostPath : String) : String :=
  Join [p.rootPath, hostPath]

/-- The test of `main` on the server version: `glog.Fatalf("Unsupported
server version ...")` runs when `serverVersionMajor < 1 || serverVersionMinor < 5`;
the result is true when the program goes on. -/
def serverVersionSupported (serverVersionMajor serverVersionMinor : Int) : Bool :=
  ! (decide (serverVersionMajor < 1) || decide (serverVersionMinor < 5))

/-! ## Example values -/

/-- A tree with the root directory and `/mnt` only. -/
def mntTree : List String → Option Kind :=
  fun q => if q = [] ∨ q = ["mnt"] then some Kind.dir else none

/-- A machine whose tree is `mntTree`, with no fault and no call made yet. -/
def mntOS : OS := { tree := mntTree, cwd := [], fault := none, log := [] }

/-- A cluster whose node carries the annotation for the storage class `fast`. -/
def fastClient : Clientset :=
  { NodesGet := fun _ => .ok { Annotations := [("hostpath.nailgun.name/fast", "/data/fast")] } }

/-- The provisioner of node `node-1` with root `/mnt`. -/
def node1 : hostPathProvisioner :=
  { nodeName := "node-1", rootPath := "/mnt", clientset := fastClient }

/-- A claim of one gibibyte with no annotation. -/
def plainClaim : PersistentVolumeClaim :=
  { Annotations := [], AccessModes := ["ReadWriteOnce"],
    Requests := [("storage", { value := 1073741824, format := "BinarySI" })] }

/-- The descriptor `Provision` returns for `fastRequest` on `node-1`. -/
def fastVolume : PersistentVolume :=
  { Name := "pvc-123", Annotations := [("nodeName", "node-1")],
    PersistentVolumeReclaimPolicy := "Delete", AccessModes := ["ReadWriteOnce"],
    Capacity := [("storage", { value := 1073741824, format := "BinarySI" })],
    HostPath := some { Path := "/data/fast/pvc-123" } }

/-- The request of the specification's example: class `fast`, volume `pvc-123`. -/
def fastRequest : VolumeOptions :=
  { PersistentVolumeReclaimPolicy := "Delete", PVName := "pvc-123", PVC := plainClaim,
    Parameters := [("hostPathName", "fast")] }

/-- Claim `pvc-123` of `fastRequest`, asking for `node-2`. -/
def node2Claim : PersistentVolumeClaim :=
  { plainClaim with Annotations := [("nailgun.name/hostpath-node", "node-2")] }

/-- A request with no `hostPathName` parameter whose claim asks for `node-2`. -/
def node2Request : VolumeOptions :=
  { PersistentVolumeReclaimPolicy := "Delete", PVName := "pvc-123", PVC := node2Claim,
    Parameters := [] }

/-- A provisioner of `node-1` whose node carries no annotation. -/
def bareNode1 : hostPathProvisioner :=
  { nodeName := "node-1", rootPath := "/mnt",
    clientset := { NodesGet := fun _ => .ok { Annotations := [] } } }

/-- A request with no parameter and a plain claim. -/
def bareRequest : VolumeOptions :=
  { PersistentVolumeReclaimPolicy := "Delete", PVName := "pvc-123", PVC := plainClaim,
    Parameters := [] }

/-- The provisioner of node `node-1` with the default root `/`. -/
def rootNode1 : hostPathProvisioner :=
  { nodeName := "node-1", rootPath := "/", clientset := fastClient }

/-- A descriptor of `node-1` whose host path leads out of the root. -/
def escapeVolume : PersistentVolume :=
  { fastVolume with HostPath := some { Path := "../etc" } }

/-- A provisioner of `node-1` whose node annotation is a relative path. -/
def relativeNode1 : hostPathProvisioner :=
  { nodeName := "node-1", rootPath := "/mnt",
    clientset :=
      { NodesGet := fun _ => .ok { Annotations := [("hostpath.nailgun.name/fast", "data/fast")] } } }

/-- A request whose volume name climbs with `..`. -/
def escapeRequest : VolumeOptions := { fastRequest with PVName := "../../../etc" }

/-- The directory `after` has at `q` was not there in `before`. -/
def OS.madeDir (before after : OS) (q : List String) : Prop :=
  before.tree q ≠ some Kind.dir ∧ after.tree q = some Kind.dir

instance OS.instDecidableMadeDir (before after : OS) (q : List String) :
    Decidable (OS.madeDir before after q) := by
  unfold OS.madeDir
  infer_instance

/-- A tree in which the volume directory `/mnt/data/fast/pvc-123` exists. -/
def volTree : List String → Option Kind :=
  fun q => if q = [] ∨ q = ["mnt"] ∨ q = ["mnt", "data"] ∨ q = ["mnt", "data", "fast"] ∨
      q = ["mnt", "data", "fast", "pvc-123"] then some Kind.dir else none

/-- A machine on which `/mnt/data` is a regular file. -/
def fileOS : OS :=
  { tree := fun q => if q = [] ∨ q = ["mnt"] then some Kind.dir
      else if q = ["mnt", "data"] then some Kind.file else none,
    cwd := [], fault := none, log := [] }

/-- A machine with the volume directory whose process stands in `/mnt/data`. -/
def dataOS : OS := { tree := volTree, cwd := ["mnt", "data"], fault := none, log := [] }

/-- The provisioner of node `node-1` with the relative root `.`. -/
def dotNode1 : hostPathProvisioner :=
  { nodeName := "node-1", rootPath := ".", clientset := fastClient }

/-- A descriptor of `node-1` whose host path is `.`. -/
def dotVolume : PersistentVolume := { fastVolume with HostPath := some { Path := "." } }

/-- A descriptor of `node-1` with no host-path source. -/
def bareVolume : PersistentVolume := { fastVolume with HostPath := none }

/-- A machine with the volume directory, on a device without fault. -/
def volOS : OS := { tree := volTree, cwd := [], fault := none, log := [] }

/-- A machine with `/mnt/data/fast` but no volume directory. -/
def fastOS : OS :=
  { tree := fun q => if q = ["mnt", "data", "fast", "pvc-123"] then none else volTree q,
    cwd := [], fault := none, log := [] }

/-! ## Definitions used in the proofs -/

/-- The elements put together again, with a slash between two of them. -/
def unsplit : List (List Char) → List Char
  | [] => []
  | [e] => e
  | e :: f :: rest => e ++ '/' :: unsplit (f :: rest)

/-- What `path.Clean` writes for a real element `n`: a slash if needed, then `n`. -/
def push (rooted : Bool) (out n : List Char) : List Char := addSlash rooted out ++ n

/-- A path element that path resolution does not skip. -/
def realElem (e : List Char) : Bool := e ≠ [] && e ≠ ['.']

/-- What the loop of `path.Clean` does to the buffer of a rooted path for one
element: nothing for an empty or `.` element, a cut back to the last slash
for `..`, a write for any other. -/
def stepRooted (out seg : List Char) : List Char :=
  if realElem seg = false then out
  else if seg = ['.', '.'] then
    (if 1 < out.length then out.take (backtrack out 1 (out.length - 1)) else out)
  else push true out seg

/-- What the loop of `path.Clean` does to the buffer and to the bound `dotdot`
of a path that is not rooted, for one element: nothing for an empty or `.`
element; for `..` a cut back to the last slash when the buffer holds a name,
and a written `..` that moves the bound otherwise; a write for any other. -/
def stepFree (st : List Char × Nat) (seg : List Char) : List Char × Nat :=
  if realElem seg = false then st
  else if seg = ['.', '.'] then
    (if st.2 < st.1.length then (st.1.take (backtrack st.1 st.2 (st.1.length - 1)), st.2)
     else ((if 0 < st.1.length then st.1 ++ ['/'] else st.1) ++ ['.', '.'],
       ((if 0 < st.1.length then st.1 ++ ['/'] else st.1) ++ ['.', '.']).length))
  else (push false st.1 seg, st.2)

/-- The last element of the path is one that `rmdir` refuses: none (the root
directory), `.` or `..`. -/
def undeletable (path : String) : Bool :=
  match lastElement path with
  | none => true
  | some e => decide (e = "..") || decide (e = ".")

/-! ## Helper lemmas on paths -/

theorem splitSlash_ne_nil (s : List Char) : splitSlash s ≠ [] := by
  cases s with
  | nil => simp [splitSlash]
  | cons c rest =>
    unfold splitSlash
    split_ifs
    · simp
    · split <;> simp

theorem splitSlash_cons_of_ne (c : Char) (rest : List Char) (hc : c ≠ '/') :
    splitSlash (c :: rest) = (c :: (splitSlash rest).headD []) :: (splitSlash rest).tail := by
  rw [splitSlash, if_neg hc]
  have := splitSlash_ne_nil rest
  cases h : splitSlash rest with
  | nil => exact absurd h this
  | cons a b => rfl

theorem splitSlash_slash (rest : List Char) : splitSlash ('/' :: rest) = [] :: splitSlash rest := by
  rw [splitSlash, if_pos rfl]

/-- Splitting at a slash splits the list of elements. -/
theorem splitSlash_append_slash (a b : List Char) :
    splitSlash (a ++ '/' :: b) = splitSlash a ++ splitSlash b := by
  induction a with
  | nil => simp [splitSlash]
  | cons c a ih =>
    by_cases hc : c = '/'
    · subst hc
      simp [splitSlash_slash, ih]
    · rw [List.cons_append, splitSlash_cons_of_ne _ _ hc, splitSlash_cons_of_ne _ _ hc, ih]
      have := splitSlash_ne_nil a
      cases h : splitSlash a with
      | nil => exact absurd h this
      | cons x y => simp

/-- A list without slash is its own single element. -/
theorem splitSlash_of_no_slash (n : List Char) (h : '/' ∉ n) : splitSlash n = [n] := by
  induction n with
  | nil => rfl
  | cons c n ih =>
    have hc : c ≠ '/' := fun h0 => h (by simp [h0])
    have hn : '/' ∉ n := fun h0 => h (by simp [h0])
    rw [splitSlash_cons_of_ne _ _ hc, ih hn]
    rfl

theorem mem_splitSlash_no_slash (s : List Char) : ∀ e ∈ splitSlash s, '/' ∉ e := by
  induction s with
  | nil => simp [splitSlash]
  | cons c s ih =>
    by_cases hc : c = '/'
    · subst hc
      rw [splitSlash_slash]
      intro e he
      rcases List.mem_cons.mp he with h | h
      · subst h; simp
      · exact ih e h
    · rw [splitSlash_cons_of_ne _ _ hc]
      have hne := splitSlash_ne_nil s
      cases h : splitSlash s with
      | nil => exact absurd h hne
      | cons x y =>
        rw [h] at ih
        intro e he
        simp only [List.headD_cons, List.tail_cons, List.mem_cons] at he
        rcases he with h1 | h1
        · subst h1
          have := ih x (by simp)
          simp only [List.mem_cons, not_or]
          exact ⟨fun h2 => hc h2.symm, this⟩
        · exact ih e (by simp [h1])

theorem unsplit_splitSlash (s : List Char) : unsplit (splitSlash s) = s := by
  induction s with
  | nil => rfl
  | cons c s ih =>
    by_cases hc : c = '/'
    · subst hc
      rw [splitSlash_slash]
      have hne := splitSlash_ne_nil s
      cases h : splitSlash s with
      | nil => exact absurd h hne
      | cons x y =>
        rw [h] at ih
        simp [unsplit, ih]
    · rw [splitSlash_cons_of_ne _ _ hc]
      have hne := splitSlash_ne_nil s
      cases h : splitSlash s with
      | nil => exact absurd h hne
      | cons x y =>
        rw [h] at ih
        cases y with
        | nil => simpa [unsplit] using ih
        | cons z w =>
          simp only [unsplit, List.headD_cons, List.tail_cons, List.cons_append] at ih ⊢
          rw [ih]

/-! ### The loop of `path.Clean` on paths without `..` -/

theorem cleanLoop_nil (r m : Bool) (out : List Char) (dd : Nat) :
    cleanLoop r m [] out dd = out := by
  cases m <;> simp [cleanLoop]

theorem cleanLoop_false_slash (r : Bool) (t out : List Char) (dd : Nat) :
    cleanLoop r false ('/' :: t) out dd = cleanLoop r false t out dd := by
  cases t with
  | nil => simp [cleanLoop]
  | cons d t => simp [cleanLoop]

theorem cleanLoop_true_slash (r : Bool) (t out : List Char) (dd : Nat) :
    cleanLoop r true ('/' :: t) out dd = cleanLoop r false t out dd := by
  simp [cleanLoop]

/-- At the end of an element the copying loop and the main loop go on alike. -/
theorem cleanLoop_true_eq_false (r : Bool) (t out : List Char) (dd : Nat)
    (ht : t = [] ∨ t.head? = some '/') :
    cleanLoop r true t out dd = cleanLoop r false t out dd := by
  cases t with
  | nil => simp [cleanLoop_nil]
  | cons c t =>
    have hc : c = '/' := by simpa using ht
    subst hc
    rw [cleanLoop_true_slash, cleanLoop_false_slash]

/-- The copying loop copies up to the next slash. -/
theorem cleanLoop_copy (r : Bool) (x : List Char) (hx : '/' ∉ x) (t out : List Char) (dd : Nat) :
    cleanLoop r true (x ++ t) out dd = cleanLoop r true t (out ++ x) dd := by
  induction x generalizing out with
  | nil => simp
  | cons c x ih =>
    have hc : c ≠ '/' := fun h0 => hx (by simp [h0])
    have hn : '/' ∉ x := fun h0 => hx (by simp [h0])
    rw [List.cons_append, cleanLoop, if_neg hc, ih hn]
    simp

/-- One element other than `..`: skipped when empty or `.`, written otherwise. -/
theorem cleanLoop_elem (r : Bool) (seg : List Char) (hseg : '/' ∉ seg) (hdd : seg ≠ ['.', '.'])
    (t out : List Char) (dd : Nat) (ht : t = [] ∨ t.head? = some '/') :
    cleanLoop r false (seg ++ t) out dd =
      cleanLoop r false t (if realElem seg then push r out seg else out) dd := by
  match seg, hseg, hdd with
  | [], _, _ => simp [realElem]
  | [c], hseg, _ =>
    have hc : c ≠ '/' := fun h0 => hseg (by simp [h0])
    cases t with
    | nil =>
      by_cases hdot : c = '.'
      · subst hdot
        simp [cleanLoop, realElem]
      · simp [cleanLoop, realElem, hc, hdot, push]
    | cons d t =>
      have hd : d = '/' := by simpa using ht
      subst hd
      by_cases hdot : c = '.'
      · subst hdot
        simp [cleanLoop, realElem]
      · rw [cleanLoop_false_slash]
        simp [cleanLoop, realElem, hc, hdot, push]
  | c :: d :: seg, hseg, hdd =>
    have hc : c ≠ '/' := fun h0 => hseg (by simp [h0])
    have hd : d ≠ '/' := fun h0 => hseg (by simp [h0])
    have hn : '/' ∉ d :: seg := fun h0 => hseg (List.mem_cons_of_mem _ h0)
    have hreal : realElem (c :: d :: seg) = true := by simp [realElem]
    have h3 : ¬ (c = '.' ∧ d = '.' ∧ (seg ++ t = [] ∨ (seg ++ t).head? = some '/')) := by
      rintro ⟨h1, h2, h4⟩
      cases seg with
      | nil => exact hdd (by rw [h1, h2])
      | cons e seg =>
        have he : e ≠ '/' := fun h0 => hseg (by simp [h0])
        simp at h4
        exact he h4
    rw [hreal, if_pos rfl]
    show cleanLoop r false (c :: d :: (seg ++ t)) out dd = _
    rw [cleanLoop, if_neg hc, if_neg (fun h => hd h.2), if_neg h3]
    have := cleanLoop_copy r (d :: seg) hn t (addSlash r out ++ [c]) dd
    rw [List.cons_append] at this
    rw [this, cleanLoop_true_eq_false r t _ dd ht]
    simp [push]

/-- The loop on a path given by its elements, none of them `..`: the real
elements are written one after the other. -/
theorem cleanLoop_unsplit (r : Bool) (segs : List (List Char))
    (hseg : ∀ e ∈ segs, '/' ∉ e) (hdd : ['.', '.'] ∉ segs) (out : List Char) (dd : Nat) :
    cleanLoop r false (unsplit segs) out dd = (segs.filter realElem).foldl (push r) out := by
  induction segs generalizing out with
  | nil => simp [unsplit, cleanLoop_nil]
  | cons e segs ih =>
    have he : '/' ∉ e := hseg e (by simp)
    have hne : e ≠ ['.', '.'] := fun h0 => hdd (by simp [h0])
    have hrest : ∀ e ∈ segs, '/' ∉ e := fun x hx => hseg x (List.mem_cons_of_mem _ hx)
    have hdd2 : ['.', '.'] ∉ segs := fun h0 => hdd (List.mem_cons_of_mem _ h0)
    cases segs with
    | nil =>
      have := cleanLoop_elem r e he hne [] out dd (Or.inl rfl)
      rw [List.append_nil] at this
      rw [unsplit, this, cleanLoop_nil]
      by_cases hr : realElem e = true
      · simp [hr]
      · simp [hr]
    | cons f segs =>
      rw [unsplit, cleanLoop_elem r e he hne ('/' :: unsplit (f :: segs)) out dd (Or.inr rfl),
        cleanLoop_false_slash, ih hrest hdd2]
      by_cases hr : realElem e = true
      · simp [hr]
      · simp [hr]

/-- The loop of `path.Clean` on a path without `..` element. -/
theorem cleanLoop_noDotDot (r : Bool) (s : List Char) (hdd : ['.', '.'] ∉ splitSlash s)
    (out : List Char) (dd : Nat) :
    cleanLoop r false s out dd = ((splitSlash s).filter realElem).foldl (push r) out := by
  have := cleanLoop_unsplit r (splitSlash s) (mem_splitSlash_no_slash s) hdd out dd
  rw [unsplit_splitSlash] at this
  exact this

/-! ### The loop of `path.Clean` on a rooted path -/

theorem backtrack_ge (buf : List Char) (dd : Nat) : ∀ w, dd ≤ w → dd ≤ backtrack buf dd w := by
  intro w
  induction w with
  | zero => intro h; simpa [backtrack] using h
  | succ w ih =>
    intro h
    unfold backtrack
    split_ifs with hc
    · exact ih (by omega)
    · exact h

theorem head?_take_of_pos (l : List Char) (k : Nat) (hk : 1 ≤ k) : (l.take k).head? = l.head? := by
  cases l with
  | nil => simp
  | cons a l =>
    cases k with
    | zero => omega
    | succ k => simp

theorem head?_append_of_head? (l t : List Char) (c : Char) (h : l.head? = some c) :
    (l ++ t).head? = some c := by
  cases l with
  | nil => simp at h
  | cons a l => simpa using h

theorem head?_addSlash (r : Bool) (out : List Char) (c : Char) (h : out.head? = some c) :
    (addSlash r out).head? = some c := by
  unfold addSlash
  split_ifs
  · exact head?_append_of_head? _ _ _ h
  · exact h

theorem cleanLoop_true_cons (r : Bool) (c : Char) (rest out : List Char) (dd : Nat) :
    cleanLoop r true (c :: rest) out dd =
      if c = '/' then cleanLoop r false rest out dd
      else cleanLoop r true rest (out ++ [c]) dd := by
  conv_lhs => rw [cleanLoop]

theorem cleanLoop_false_single (r : Bool) (c : Char) (out : List Char) (dd : Nat) :
    cleanLoop r false [c] out dd =
      if c = '/' then out else if c = '.' then out else addSlash r out ++ [c] := by
  conv_lhs => rw [cleanLoop]
  simp only [cleanLoop_nil]

theorem cleanLoop_rooted_cons_cons (c d : Char) (rest out : List Char) (dd : Nat) :
    cleanLoop true false (c :: d :: rest) out dd =
      if c = '/' then cleanLoop true false (d :: rest) out dd
      else if c = '.' ∧ d = '/' then cleanLoop true false (d :: rest) out dd
      else if c = '.' ∧ d = '.' ∧ (rest = [] ∨ rest.head? = some '/') then
        if dd < out.length then
          cleanLoop true false rest (out.take (backtrack out dd (out.length - 1))) dd
        else cleanLoop true false rest out dd
      else cleanLoop true true (d :: rest) (addSlash true out ++ [c]) dd := by
  conv_lhs => rw [cleanLoop]
  simp

/-- On a rooted path the buffer keeps its leading slash. -/
theorem cleanLoop_rooted_head (dd : Nat) (hdd : 1 ≤ dd) :
    ∀ (n : Nat) (xs : List Char), xs.length ≤ n → ∀ (m : Bool) (out : List Char),
      out.head? = some '/' → (cleanLoop true m xs out dd).head? = some '/' := by
  intro n
  induction n with
  | zero =>
    intro xs hlen m out hout
    have : xs = [] := List.length_eq_zero.mp (by omega)
    subst this
    rw [cleanLoop_nil]
    exact hout
  | succ n ih =>
    intro xs hlen m out hout
    match xs, m, hlen with
    | [], m, _ =>
      rw [cleanLoop_nil]
      exact hout
    | c :: xs, true, hlen =>
      have hl : xs.length ≤ n := by simpa using hlen
      rw [cleanLoop_true_cons]
      split_ifs
      · exact ih xs hl false out hout
      · exact ih xs hl true _ (head?_append_of_head? _ _ _ hout)
    | [c], false, _ =>
      rw [cleanLoop_false_single]
      split_ifs
      · exact hout
      · exact hout
      · exact head?_append_of_head? _ _ _ (head?_addSlash _ _ _ hout)
    | c :: d :: xs, false, hlen =>
      have hl : (d :: xs).length ≤ n := by simpa using hlen
      have hl2 : xs.length ≤ n := by
        simp only [List.length_cons] at hlen
        omega
      rw [cleanLoop_rooted_cons_cons]
      split_ifs with h1 h2 h3 h4
      · exact ih _ hl false out hout
      · exact ih _ hl false out hout
      · refine ih _ hl2 false _ ?_
        rw [head?_take_of_pos _ _ ?_]
        · exact hout
        · have := backtrack_ge out dd (out.length - 1) (by omega)
          omega
      · exact ih _ hl2 false out hout
      · exact ih _ hl true _ (head?_append_of_head? _ _ _ (head?_addSlash _ _ _ hout))

/-- On a rooted path, the loop on `xs/ys` is the loop on `ys` started from
what the loop on `xs` leaves. -/
theorem cleanLoop_rooted_split (dd : Nat) (ys : List Char) :
    ∀ (n : Nat) (xs : List Char), xs.length ≤ n → ∀ (m : Bool) (out : List Char),
      cleanLoop true m (xs ++ '/' :: ys) out dd =
        cleanLoop true false ys (cleanLoop true m xs out dd) dd := by
  intro n
  induction n with
  | zero =>
    intro xs hlen m out
    have : xs = [] := List.length_eq_zero.mp (by omega)
    subst this
    rw [cleanLoop_nil, List.nil_append]
    cases m
    · exact cleanLoop_false_slash _ _ _ _
    · exact cleanLoop_true_slash _ _ _ _
  | succ n ih =>
    intro xs hlen m out
    match xs, m, hlen with
    | [], m, _ =>
      rw [cleanLoop_nil, List.nil_append]
      cases m
      · exact cleanLoop_false_slash _ _ _ _
      · exact cleanLoop_true_slash _ _ _ _
    | c :: xs, true, hlen =>
      have hl : xs.length ≤ n := by simpa using hlen
      rw [List.cons_append, cleanLoop_true_cons, cleanLoop_true_cons]
      split_ifs
      · exact ih xs hl false out
      · exact ih xs hl true _
    | [c], false, _ =>
      show cleanLoop true false (c :: '/' :: ys) out dd = _
      rw [cleanLoop_rooted_cons_cons, cleanLoop_false_single]
      by_cases h1 : c = '/'
      · rw [if_pos h1, if_pos h1, cleanLoop_false_slash]
      · rw [if_neg h1, if_neg h1]
        by_cases h2 : c = '.'
        · rw [if_pos ⟨h2, rfl⟩, if_pos h2, cleanLoop_false_slash]
        · rw [if_neg (fun h => h2 h.1), if_neg (fun h => h2 h.1), if_neg h2,
            cleanLoop_true_slash]
    | c :: d :: xs, false, hlen =>
      have hl : (d :: xs).length ≤ n := by simpa using hlen
      have hl2 : xs.length ≤ n := by
        simp only [List.length_cons] at hlen
        omega
      have hcond : (xs ++ '/' :: ys = [] ∨ (xs ++ '/' :: ys).head? = some '/') ↔
          (xs = [] ∨ xs.head? = some '/') := by
        cases xs with
        | nil => simp
        | cons e xs => simp
      show cleanLoop true false (c :: d :: (xs ++ '/' :: ys)) out dd = _
      rw [cleanLoop_rooted_cons_cons, cleanLoop_rooted_cons_cons]
      by_cases h1 : c = '/'
      · rw [if_pos h1, if_pos h1]
        exact ih _ hl false out
      · rw [if_neg h1, if_neg h1]
        by_cases h2 : c = '.' ∧ d = '/'
        · rw [if_pos h2, if_pos h2]
          exact ih _ hl false out
        · rw [if_neg h2, if_neg h2]
          by_cases h3 : c = '.' ∧ d = '.' ∧ (xs = [] ∨ xs.head? = some '/')
          · rw [if_pos h3, if_pos ⟨h3.1, h3.2.1, hcond.mpr h3.2.2⟩]
            split_ifs with h4
            · exact ih _ hl2 false _
            · exact ih _ hl2 false _
          · rw [if_neg h3, if_neg (fun h => h3 ⟨h.1, h.2.1, hcond.mp h.2.2⟩)]
            exact ih _ hl true _


/-! ### Path resolution -/

theorem walk_append (xs ys : List String) : ∀ cur, walk cur (xs ++ ys) = walk (walk cur xs) ys := by
  induction xs with
  | nil => intro cur; rfl
  | cons e xs ih =>
    intro cur
    simp only [List.cons_append, walk]
    split_ifs <;> exact ih _

/-- Resolution along elements without `..` goes down by the elements that
are neither empty nor `.`. -/
theorem walk_noDotDot (es : List String) (h : ".." ∉ es) :
    ∀ cur, walk cur es = cur ++ es.filter (fun e => e ≠ "" ∧ e ≠ ".") := by
  induction es with
  | nil => intro cur; simp [walk]
  | cons e es ih =>
    intro cur
    have he : e ≠ ".." := fun h0 => h (by simp [h0])
    have hes : ".." ∉ es := fun h0 => h (List.mem_cons_of_mem _ h0)
    by_cases h1 : e = "" ∨ e = "."
    · have hf : ¬ (e ≠ "" ∧ e ≠ ".") := by
        rintro ⟨h2, h3⟩
        rcases h1 with h1 | h1
        · exact h2 h1
        · exact h3 h1
      rw [walk, if_pos h1, ih hes, List.filter_cons_of_neg (by simpa using hf)]
    · have hf : e ≠ "" ∧ e ≠ "." := by
        constructor
        · exact fun h0 => h1 (Or.inl h0)
        · exact fun h0 => h1 (Or.inr h0)
      rw [walk, if_neg h1, if_neg he, ih hes, List.filter_cons_of_pos (by simpa using hf)]
      simp

theorem mk_ne_empty (n : List Char) (h : n ≠ []) : String.mk n ≠ "" := by
  intro h0
  apply h
  have := congrArg String.data h0
  simpa using this

theorem mk_ne_dot (n : List Char) (h : n ≠ ['.']) : String.mk n ≠ "." := by
  intro h0
  apply h
  have := congrArg String.data h0
  simpa using this

theorem mk_ne_dotdot (n : List Char) (h : n ≠ ['.', '.']) : String.mk n ≠ ".." := by
  intro h0
  apply h
  have := congrArg String.data h0
  simpa using this

/-- The elements of a string that are neither empty nor `.`, from its
characters. -/
theorem realElements_eq (path : String) :
    realElements path = ((splitSlash path.data).filter realElem).map String.mk := by
  unfold realElements elements
  rw [List.filter_map]
  congr 1
  apply List.filter_congr
  intro n _
  simp only [Function.comp, realElem]
  by_cases h1 : n = []
  · subst h1
    simp
  · by_cases h2 : n = ['.']
    · subst h2
      simp
    · have := mk_ne_empty n h1
      have := mk_ne_dot n h2
      simp [*]

theorem dotdot_not_mem_elements (path : String) (h : ".." ∉ elements path) :
    ['.', '.'] ∉ splitSlash path.data := by
  intro h0
  apply h
  unfold elements
  exact List.mem_map.mpr ⟨_, h0, rfl⟩

/-- After a first element, the elements written by `path.Clean` are the
elements of the buffer. -/
theorem splitSlash_foldl_push (r : Bool) : ∀ (ns : List (List Char)) (out : List Char),
    (∀ n ∈ ns, n ≠ [] ∧ '/' ∉ n) → (if r then out.length ≠ 1 else out.length ≠ 0) →
    splitSlash (ns.foldl (push r) out) = splitSlash out ++ ns := by
  intro ns
  induction ns with
  | nil => intro out _ _; simp
  | cons n ns ih =>
    intro out hns hout
    have hn := hns n (by simp)
    have hpush : push r out n = out ++ '/' :: n := by
      unfold push addSlash
      cases r
      · simp at hout
        simp [hout]
      · simp at hout
        simp [hout]
    rw [List.foldl_cons, ih _ (fun x hx => hns x (List.mem_cons_of_mem _ hx)), hpush,
      splitSlash_append_slash, splitSlash_of_no_slash n hn.2]
    · simp
    · rw [hpush]
      have : 0 < n.length := List.length_pos.mpr hn.1
      cases r
      · simp
      · simp only [if_true, List.length_append, List.length_cons]
        omega

/-! ### `path.Join` under an absolute root -/

/-- `path.Clean` on a rooted path is the loop started with the buffer `/`. -/
theorem cleanChars_rooted (s : List Char) :
    cleanChars ('/' :: s) = cleanLoop true false s ['/'] 1 ∧
      (cleanLoop true false s ['/'] 1).head? = some '/' := by
  have hhead := cleanLoop_rooted_head 1 (le_refl 1) s.length s (le_refl _) false ['/'] rfl
  refine ⟨?_, hhead⟩
  unfold cleanChars
  simp only [List.cons_ne_nil, if_false, List.head?_cons, decide_True, if_true, List.drop_one,
    List.tail_cons]
  rw [if_neg]
  intro h0
  rw [List.length_eq_zero.mp h0] at hhead
  simp at hhead

/-- `path.Clean` on a path that is not rooted and not empty is the loop
started with the empty buffer, and `.` when nothing is written. -/
theorem cleanChars_unrooted (s : List Char) (hs : s ≠ []) (hr : s.head? ≠ some '/') :
    cleanChars s =
      if (cleanLoop false false s [] 0).length = 0 then ['.'] else cleanLoop false false s [] 0 := by
  unfold cleanChars
  simp only [hs, if_false, hr, decide_False, Bool.false_eq_true]

/-- The elements that the loop writes for a path without `..`: each has a
character, none has a slash, none is `.` or `..`. -/
theorem filter_realElem_proper (s : List Char) (hdd : ['.', '.'] ∉ splitSlash s) :
    ∀ n ∈ (splitSlash s).filter realElem,
      (n ≠ [] ∧ '/' ∉ n) ∧ n ≠ ['.'] ∧ n ≠ ['.', '.'] := by
  intro n hn
  rw [List.mem_filter] at hn
  have h1 := mem_splitSlash_no_slash s n hn.1
  have h2 : n ≠ [] ∧ n ≠ ['.'] := by simpa [realElem] using hn.2
  exact ⟨⟨h2.1, h1⟩, h2.2, fun h0 => hdd (h0 ▸ hn.1)⟩

theorem walk_proper (ns : List (List Char))
    (hns : ∀ n ∈ ns, (n ≠ [] ∧ '/' ∉ n) ∧ n ≠ ['.'] ∧ n ≠ ['.', '.']) (cur : List String) :
    walk cur (ns.map String.mk) = cur ++ ns.map String.mk := by
  have hdd : ".." ∉ ns.map String.mk := by
    intro h0
    obtain ⟨n, hn, h1⟩ := List.mem_map.mp h0
    exact mk_ne_dotdot n (hns n hn).2.2 h1
  rw [walk_noDotDot _ hdd]
  congr 1
  rw [List.filter_eq_self]
  intro e he
  obtain ⟨n, hn, rfl⟩ := List.mem_map.mp he
  have h1 := mk_ne_empty n (hns n hn).1.1
  have h2 := mk_ne_dot n (hns n hn).2.1
  simp [h1, h2]

/-- Resolution of what the loop writes after a rooted buffer: the location of
the buffer, then the written elements. -/
theorem walk_foldl_push (ns : List (List Char))
    (hns : ∀ n ∈ ns, (n ≠ [] ∧ '/' ∉ n) ∧ n ≠ ['.'] ∧ n ≠ ['.', '.'])
    (B : List Char) (hB : B.head? = some '/') (cur : List String) :
    walk cur ((splitSlash (ns.foldl (push true) B)).map String.mk) =
      walk cur ((splitSlash B).map String.mk) ++ ns.map String.mk := by
  by_cases hlen : B.length = 1
  · have hB1 : B = ['/'] := by
      match B, hB, hlen with
      | [b], hB, _ =>
        simp at hB
        rw [hB]
    subst hB1
    cases ns with
    | nil => simp
    | cons n ns =>
      have hn := hns n (by simp)
      have hpush : push true ['/'] n = '/' :: n := by simp [push, addSlash]
      have hlen2 : (if true then ('/' :: n).length ≠ 1 else ('/' :: n).length ≠ 0) := by
        have : 0 < n.length := List.length_pos.mpr hn.1.1
        simp only [if_true, List.length_cons]
        omega
      rw [List.foldl_cons, hpush,
        splitSlash_foldl_push true ns _ (fun x hx => (hns x (List.mem_cons_of_mem _ hx)).1) hlen2,
        splitSlash_slash, splitSlash_of_no_slash n hn.1.2]
      have hw := walk_proper (n :: ns) hns cur
      have h0 : walk cur ((splitSlash ['/']).map String.mk) = cur := by
        simp [splitSlash, walk]
      rw [h0, ← hw]
      simp [walk]
  · rw [splitSlash_foldl_push true ns B (fun x hx => (hns x hx).1) (by simpa using hlen),
      List.map_append, walk_append, walk_proper ns hns]

/-- The local path under an absolute root, for a host path without `..`:
its location is the location of the cleaned root followed by the elements
of the host path that are neither empty nor `.`. -/
theorem localPath_resolve (p : hostPathProvisioner) (hostPath : String) (os : OS)
    (hroot : p.rootPath.data.head? = some '/') (hdd : ".." ∉ elements hostPath) :
    os.resolve (p.localPath hostPath) = os.resolve (Clean p.rootPath) ++ realElements hostPath := by
  rcases hr : p.rootPath with ⟨root⟩
  rw [hr] at hroot
  match root, hroot with
  | c :: r', hroot =>
    have hc : c = '/' := by simpa using hroot
    subst hc
    have hne : (String.mk ('/' :: r')) ≠ "" := mk_ne_empty _ (by simp)
    have hdd2 := dotdot_not_mem_elements hostPath hdd
    have hjoin : (p.localPath hostPath).data =
        ((splitSlash hostPath.data).filter realElem).foldl (push true)
          (cleanLoop true false r' ['/'] 1) := by
      show (Join [p.rootPath, hostPath]).data = _
      rw [hr, Join, if_neg hne]
      show cleanChars ('/' :: (r' ++ '/' :: hostPath.data)) = _
      rw [(cleanChars_rooted _).1, cleanLoop_rooted_split 1 hostPath.data r'.length r' (le_refl _),
        cleanLoop_noDotDot true _ hdd2]
    have hclean : (Clean (String.mk ('/' :: r'))).data = cleanLoop true false r' ['/'] 1 :=
      (cleanChars_rooted r').1
    have hB := (cleanChars_rooted r').2
    have hhead1 : (p.localPath hostPath).data.head? = some '/' := by
      have := (cleanChars_rooted (r' ++ '/' :: hostPath.data)).2
      rw [cleanLoop_rooted_split 1 hostPath.data r'.length r' (le_refl _),
        cleanLoop_noDotDot true _ hdd2, ← hjoin] at this
      exact this
    unfold OS.resolve elements
    rw [hhead1, hclean, hB, if_pos rfl, hjoin,
      walk_foldl_push _ (filter_realElem_proper _ hdd2) _ hB, realElements_eq]

/-! ### `path.Join` of two paths without `..` -/

/-- The elements of what the loop writes from the start of a path: the
written elements, after an empty one on a rooted path. -/
theorem splitSlash_foldl_push_start (r : Bool) (ns : List (List Char))
    (hns : ∀ n ∈ ns, n ≠ [] ∧ '/' ∉ n) :
    splitSlash (ns.foldl (push r) (if r then ['/'] else [])) =
      (if r then [[]] else []) ++ (if ns = [] then [[]] else ns) := by
  cases ns with
  | nil => cases r <;> rfl
  | cons n ns =>
    have hn := hns n (by simp)
    have hpos : 0 < n.length := List.length_pos.mpr hn.1
    have hrest : ∀ x ∈ ns, x ≠ [] ∧ '/' ∉ x := fun x hx => hns x (List.mem_cons_of_mem _ hx)
    cases r
    · have hpush : push false [] n = n := by simp [push, addSlash]
      have hlen : (if false then n.length ≠ 1 else n.length ≠ 0) := by
        simp only [Bool.false_eq_true, if_false]
        omega
      simp only [Bool.false_eq_true, if_false, List.foldl_cons, hpush]
      rw [splitSlash_foldl_push false ns n hrest hlen, splitSlash_of_no_slash n hn.2]
      simp
    · have hpush : push true ['/'] n = '/' :: n := by simp [push, addSlash]
      have hlen : (if true then ('/' :: n).length ≠ 1 else ('/' :: n).length ≠ 0) := by
        simp only [if_true, List.length_cons]
        omega
      simp only [if_true, List.foldl_cons, hpush]
      rw [splitSlash_foldl_push true ns _ hrest hlen, splitSlash_slash,
        splitSlash_of_no_slash n hn.2]
      simp

/-- The characters of `path.Clean` on a non-empty path without `..`: its
elements are the real elements of the path, possibly after an empty one or
alone as `.`. -/
theorem cleanChars_noDotDot (s : List Char) (hs : s ≠ []) (hdd : ['.', '.'] ∉ splitSlash s) :
    ['.', '.'] ∉ splitSlash (cleanChars s) ∧
      (splitSlash (cleanChars s)).filter realElem = (splitSlash s).filter realElem := by
  have hN := filter_realElem_proper s hdd
  have hfilter : ∀ (l : List (List Char)), (∀ n ∈ l, (n ≠ [] ∧ '/' ∉ n) ∧ n ≠ ['.'] ∧
      n ≠ ['.', '.']) → l.filter realElem = l := by
    intro l hl
    rw [List.filter_eq_self]
    intro n hn
    simp [realElem, (hl n hn).1.1, (hl n hn).2.1]
  have hnot : ['.', '.'] ∉ (splitSlash s).filter realElem := fun h0 => (hN _ h0).2.2 rfl
  by_cases hr : s.head? = some '/'
  · match s, hs, hr with
    | c :: s', _, hr =>
      have hc : c = '/' := by simpa using hr
      subst hc
      have hsplit : splitSlash ('/' :: s') = [] :: splitSlash s' := splitSlash_slash s'
      have hdd' : ['.', '.'] ∉ splitSlash s' := fun h0 => hdd (by rw [hsplit]; simp [h0])
      have hN' := filter_realElem_proper s' hdd'
      have hsame : (splitSlash ('/' :: s')).filter realElem = (splitSlash s').filter realElem := by
        rw [hsplit]
        simp [realElem]
      have hnot' : ['.', '.'] ∉ (splitSlash s').filter realElem := fun h0 => (hN' _ h0).2.2 rfl
      rw [(cleanChars_rooted s').1, cleanLoop_noDotDot true s' hdd', hsame]
      have := splitSlash_foldl_push_start true _ (fun n hn => (hN' n hn).1)
      simp only [if_true] at this
      rw [this]
      by_cases he : (splitSlash s').filter realElem = []
      · rw [he]
        simp [realElem]
      · rw [if_neg he]
        refine ⟨?_, ?_⟩
        · simp only [List.singleton_append, List.mem_cons, not_or]
          exact ⟨by simp, hnot'⟩
        · rw [List.singleton_append, List.filter_cons_of_neg (by simp [realElem])]
          exact hfilter _ hN'
  · rw [cleanChars_unrooted s hs hr, cleanLoop_noDotDot false s hdd]
    have := splitSlash_foldl_push_start false _ (fun n hn => (hN n hn).1)
    simp only [Bool.false_eq_true, if_false, List.nil_append] at this
    by_cases he : (splitSlash s).filter realElem = []
    · rw [he]
      simp [splitSlash, realElem]
    · rw [if_neg he] at this
      have hlen : ¬ (((splitSlash s).filter realElem).foldl (push false) []).length = 0 := by
        intro h0
        rw [List.length_eq_zero.mp h0] at this
        cases hfl : (splitSlash s).filter realElem with
        | nil => exact he hfl
        | cons n ns =>
          rw [hfl] at this
          have hn := (hN n (by rw [hfl]; simp)).1.1
          simp only [splitSlash, List.cons.injEq] at this
          exact hn this.1.symm
      rw [if_neg hlen, this]
      exact ⟨hnot, hfilter _ hN⟩

/-- The host path `path.Join(P, name)` for a non-empty `P`, when neither
argument has a `..` element: it has none either, and its real elements are
those of `P` followed by those of `name`. -/
theorem join_noDotDot (P name : String) (hP : P ≠ "") (h1 : ".." ∉ elements P)
    (h2 : ".." ∉ elements name) :
    ".." ∉ elements (Join [P, name]) ∧
      realElements (Join [P, name]) = realElements P ++ realElements name := by
  have hsplit := splitSlash_append_slash P.data name.data
  have hdd : ['.', '.'] ∉ splitSlash (P.data ++ '/' :: name.data) := by
    rw [hsplit, List.mem_append, not_or]
    exact ⟨dotdot_not_mem_elements P h1, dotdot_not_mem_elements name h2⟩
  have hdata : (Join [P, name]).data = cleanChars (P.data ++ '/' :: name.data) := by
    rw [Join, if_neg hP]
    rfl
  obtain ⟨hc1, hc2⟩ := cleanChars_noDotDot (P.data ++ '/' :: name.data) (by simp) hdd
  constructor
  · intro h0
    unfold elements at h0
    obtain ⟨n, hn, hmk⟩ := List.mem_map.mp h0
    rw [hdata] at hn
    have : n = ['.', '.'] := by
      have := congrArg String.data hmk
      simpa using this
    exact hc1 (this ▸ hn)
  · rw [realElements_eq, realElements_eq, realElements_eq, hdata, hc2, hsplit, List.filter_append,
      List.map_append]

/-- On an absolute root without `..`, cleaning does not change the location. -/
theorem resolve_Clean_noDotDot (os : OS) (root : String) (hroot : root.data.head? = some '/')
    (hdd : ".." ∉ elements root) : os.resolve (Clean root) = os.resolve root := by
  have hdd2 := dotdot_not_mem_elements root hdd
  have hne : root.data ≠ [] := by
    intro h0
    rw [h0] at hroot
    simp at hroot
  obtain ⟨hc1, hc2⟩ := cleanChars_noDotDot root.data hne hdd2
  have hhead : (Clean root).data.head? = some '/' := by
    match hd : root.data, hroot with
    | c :: r', hroot =>
      have hc : c = '/' := by simpa using hroot
      subst hc
      show (cleanChars root.data).head? = _
      rw [hd, (cleanChars_rooted r').1]
      exact (cleanChars_rooted r').2
  have hddc : ".." ∉ elements (Clean root) := by
    intro h0
    unfold elements at h0
    obtain ⟨n, hn, hmk⟩ := List.mem_map.mp h0
    have : n = ['.', '.'] := by
      have := congrArg String.data hmk
      simpa using this
    exact hc1 (this ▸ hn)
  unfold OS.resolve
  rw [hhead, hroot, if_pos rfl, walk_noDotDot _ hddc, walk_noDotDot _ hdd]
  have h1 := realElements_eq (Clean root)
  have h2 := realElements_eq root
  unfold realElements at h1 h2
  rw [h1, h2]
  show [] ++ List.map String.mk (List.filter realElem (splitSlash (cleanChars root.data))) = _
  rw [hc2]

/-! ### `path.Clean` on a rooted path leaves no `..` -/

/-- Where the cut of the `..` case stops: at the bound, or at a slash. -/
theorem backtrack_stop (buf : List Char) (dd : Nat) :
    ∀ w, backtrack buf dd w ≤ w ∧
      (backtrack buf dd w ≤ dd ∨ buf.getD (backtrack buf dd w) '/' = '/') := by
  intro w
  induction w with
  | zero => simp [backtrack]
  | succ w ih =>
    unfold backtrack
    split_ifs with hc
    · exact ⟨by omega, ih.2⟩
    · refine ⟨le_refl _, ?_⟩
      by_cases h1 : dd < w + 1
      · right
        by_contra h2
        exact hc ⟨h1, h2⟩
      · left
        omega

/-- One element of a rooted path, `..` included. -/
theorem cleanLoop_elem_rooted (seg : List Char) (hseg : '/' ∉ seg) (t out : List Char)
    (ht : t = [] ∨ t.head? = some '/') :
    cleanLoop true false (seg ++ t) out 1 = cleanLoop true false t (stepRooted out seg) 1 := by
  by_cases hdd : seg = ['.', '.']
  · subst hdd
    have hr : realElem ['.', '.'] = true := by decide
    show cleanLoop true false ('.' :: '.' :: t) out 1 = _
    rw [cleanLoop_rooted_cons_cons, if_neg (by decide), if_neg (by decide),
      if_pos ⟨rfl, rfl, ht⟩]
    unfold stepRooted
    rw [hr]
    simp only [Bool.true_eq_false, if_false, if_true]
    split_ifs <;> rfl
  · rw [cleanLoop_elem true seg hseg hdd t out 1 ht]
    unfold stepRooted
    by_cases hr : realElem seg = true
    · simp [hr, hdd]
    · simp [hr]

/-- The loop on a rooted path given by its elements. -/
theorem cleanLoop_unsplit_rooted (segs : List (List Char)) (hseg : ∀ e ∈ segs, '/' ∉ e)
    (out : List Char) :
    cleanLoop true false (unsplit segs) out 1 = segs.foldl stepRooted out := by
  induction segs generalizing out with
  | nil => simp [unsplit, cleanLoop_nil]
  | cons e segs ih =>
    have he : '/' ∉ e := hseg e (by simp)
    have hrest : ∀ e ∈ segs, '/' ∉ e := fun x hx => hseg x (List.mem_cons_of_mem _ hx)
    cases segs with
    | nil =>
      have := cleanLoop_elem_rooted e he [] out (Or.inl rfl)
      rw [List.append_nil] at this
      rw [unsplit, this, cleanLoop_nil]
      rfl
    | cons f segs =>
      rw [unsplit, cleanLoop_elem_rooted e he ('/' :: unsplit (f :: segs)) out (Or.inr rfl),
        cleanLoop_false_slash, ih hrest]
      rfl

/-- The elements of a buffer cut before a slash are among its elements. -/
theorem splitSlash_take_of_slash (out : List Char) (k : Nat) (hk : k < out.length)
    (hs : out.getD k '/' = '/') (e : List Char) (he : e ∈ splitSlash (out.take k)) :
    e ∈ splitSlash out := by
  have hsplit : out = out.take k ++ '/' :: out.drop (k + 1) := by
    have h1 : out.drop k = '/' :: out.drop (k + 1) := by
      rw [List.drop_eq_getElem_cons hk]
      congr 1
      rw [List.getD_eq_getElem _ _ hk] at hs
      exact hs
    rw [← h1, List.take_append_drop]
  rw [hsplit, splitSlash_append_slash]
  exact List.mem_append_left _ he

/-- The buffer of a rooted path starts with a slash and has no `..` element;
one more element of the path keeps it so. -/
theorem stepRooted_good (out seg : List Char) (hseg : '/' ∉ seg)
    (hhead : out.head? = some '/') (hdd : ['.', '.'] ∉ splitSlash out) :
    (stepRooted out seg).head? = some '/' ∧ ['.', '.'] ∉ splitSlash (stepRooted out seg) := by
  unfold stepRooted
  by_cases hr : realElem seg = false
  · rw [if_pos hr]
    exact ⟨hhead, hdd⟩
  · rw [if_neg hr]
    by_cases hs : seg = ['.', '.']
    · rw [if_pos hs]
      by_cases hlen : 1 < out.length
      · rw [if_pos hlen]
        have hge := backtrack_ge out 1 (out.length - 1) (by omega)
        obtain ⟨hle, hstop⟩ := backtrack_stop out 1 (out.length - 1)
        refine ⟨by rw [head?_take_of_pos _ _ hge]; exact hhead, ?_⟩
        rcases hstop with h1 | h1
        · have hk : backtrack out 1 (out.length - 1) = 1 := by omega
          rw [hk]
          match out, hhead with
          | c :: rest, hhead =>
            have hc : c = '/' := by simpa using hhead
            subst hc
            simp [splitSlash]
        · intro h0
          exact hdd (splitSlash_take_of_slash out _ (by omega) h1 _ h0)
      · rw [if_neg hlen]
        exact ⟨hhead, hdd⟩
    · rw [if_neg hs]
      have hne : seg ≠ [] := by
        intro h0
        apply hr
        rw [h0]
        rfl
      refine ⟨head?_append_of_head? _ _ _ (head?_addSlash _ _ _ hhead), ?_⟩
      by_cases hlen : out.length = 1
      · match out, hhead, hlen with
        | [c], hhead, _ =>
          have hc : c = '/' := by simpa using hhead
          subst hc
          have hpush : push true ['/'] seg = '/' :: seg := by simp [push, addSlash]
          rw [hpush, splitSlash_slash, splitSlash_of_no_slash seg hseg]
          simp only [List.mem_cons, List.mem_singleton, not_or, List.not_mem_nil, or_false]
          exact ⟨by simp, fun h0 => hs h0.symm⟩
      · have hpush : push true out seg = out ++ '/' :: seg := by simp [push, addSlash, hlen]
        rw [hpush, splitSlash_append_slash, splitSlash_of_no_slash seg hseg, List.mem_append,
          not_or]
        exact ⟨hdd, by simpa using fun h0 => hs h0.symm⟩

theorem foldl_stepRooted_good (segs : List (List Char)) (hseg : ∀ e ∈ segs, '/' ∉ e) :
    ∀ (out : List Char), out.head? = some '/' → ['.', '.'] ∉ splitSlash out →
      ['.', '.'] ∉ splitSlash (segs.foldl stepRooted out) := by
  induction segs with
  | nil => intro out _ hdd; exact hdd
  | cons e segs ih =>
    intro out hhead hdd
    have h := stepRooted_good out e (hseg e (by simp)) hhead hdd
    exact ih (fun x hx => hseg x (List.mem_cons_of_mem _ hx)) _ h.1 h.2

/-- The cleaned form of a rooted path has no `..` element, whatever the path. -/
theorem cleanChars_rooted_noDotDot (s : List Char) :
    ['.', '.'] ∉ splitSlash (cleanChars ('/' :: s)) := by
  rw [(cleanChars_rooted s).1]
  have h := cleanLoop_unsplit_rooted (splitSlash s) (mem_splitSlash_no_slash s) ['/']
  rw [unsplit_splitSlash] at h
  rw [h]
  exact foldl_stepRooted_good _ (mem_splitSlash_no_slash s) ['/'] rfl (by decide)

/-- The host path `path.Join(P, name)` for an absolute `P` has no `..`
element, whatever the name. -/
theorem join_absolute_noDotDot (P name : String) (hP : P.data.head? = some '/') :
    ".." ∉ elements (Join [P, name]) := by
  have hne : P ≠ "" := by
    intro h0
    rw [h0] at hP
    simp at hP
  have hdata : (Join [P, name]).data = cleanChars (P.data ++ '/' :: name.data) := by
    rw [Join, if_neg hne]
    rfl
  intro h0
  unfold elements at h0
  obtain ⟨n, hn, hmk⟩ := List.mem_map.mp h0
  have hn2 : n = ['.', '.'] := by
    have := congrArg String.data hmk
    simpa using this
  rw [hdata] at hn
  match hd : P.data, hP with
  | c :: r', hP =>
    have hc : c = '/' := by simpa using hP
    subst hc
    rw [hd] at hn
    exact cleanChars_rooted_noDotDot (r' ++ '/' :: name.data) (hn2 ▸ hn)

/-! ### Paths that `rmdir` refuses -/

theorem lastElement_of_data (path : String) (A : List Char) (n : List Char)
    (hn : '/' ∉ n) (hne : n ≠ []) (h : path.data = A ++ '/' :: n) :
    lastElement path = some (String.mk n) := by
  unfold lastElement elements
  rw [h, splitSlash_append_slash, splitSlash_of_no_slash n hn, List.map_append,
    List.filter_append]
  have : List.filter (fun e => decide (e ≠ "")) (List.map String.mk [n]) = [String.mk n] := by
    simp [mk_ne_empty n hne]
  rw [this, List.getLast?_append]
  simp

/-- A path that `os.RemoveAll` refuses for its final `.` has `.` as last
element. -/
theorem endsWithDot_undeletable (path : String) (h : endsWithDot path = true) :
    undeletable path = true := by
  have hlast : lastElement path = some "." := by
    unfold endsWithDot at h
    have hrev : path.data = path.data.reverse.reverse := by simp
    match hr : path.data.reverse, h with
    | [c], h =>
      have hc : c = '.' := by simpa using h
      subst hc
      rw [hr] at hrev
      have hd : path.data = ['.'] := by simpa using hrev
      unfold lastElement elements
      rw [hd]
      decide
    | c :: d :: rest, h =>
      have hc : c = '.' ∧ d = '/' := by simpa using h
      obtain ⟨hc1, hc2⟩ := hc
      subst hc1 hc2
      rw [hr] at hrev
      have hd : path.data = rest.reverse ++ '/' :: ['.'] := by simpa using hrev
      exact lastElement_of_data path _ ['.'] (by decide) (by decide) hd
  unfold undeletable
  rw [hlast]
  decide

theorem undeletable_false (path : String) (h : undeletable path = false) :
    ∃ e, lastElement path = some e ∧ e ≠ ".." ∧ e ≠ "." := by
  unfold undeletable at h
  cases hl : lastElement path with
  | none => rw [hl] at h; simp at h
  | some e =>
    rw [hl] at h
    refine ⟨e, rfl, ?_, ?_⟩
    · intro h0
      simp [h0] at h
    · intro h0
      simp [h0] at h

/-! ### The loop of `path.Clean` on a path that is not rooted -/

theorem cleanLoop_free_cons_cons (c d : Char) (rest out : List Char) (dd : Nat) :
    cleanLoop false false (c :: d :: rest) out dd =
      if c = '/' then cleanLoop false false (d :: rest) out dd
      else if c = '.' ∧ d = '/' then cleanLoop false false (d :: rest) out dd
      else if c = '.' ∧ d = '.' ∧ (rest = [] ∨ rest.head? = some '/') then
        if dd < out.length then
          cleanLoop false false rest (out.take (backtrack out dd (out.length - 1))) dd
        else cleanLoop false false rest
          ((if 0 < out.length then out ++ ['/'] else out) ++ ['.', '.'])
          ((if 0 < out.length then out ++ ['/'] else out) ++ ['.', '.']).length
      else cleanLoop false true (d :: rest) (addSlash false out ++ [c]) dd := by
  conv_lhs => rw [cleanLoop]
  simp

/-- One element of a path that is not rooted, `..` included. -/
theorem cleanLoop_elem_free (seg : List Char) (hseg : '/' ∉ seg) (t out : List Char) (dd : Nat)
    (ht : t = [] ∨ t.head? = some '/') :
    cleanLoop false false (seg ++ t) out dd =
      cleanLoop false false t (stepFree (out, dd) seg).1 (stepFree (out, dd) seg).2 := by
  by_cases hdd : seg = ['.', '.']
  · subst hdd
    have hr : realElem ['.', '.'] = true := by decide
    show cleanLoop false false ('.' :: '.' :: t) out dd = _
    rw [cleanLoop_free_cons_cons, if_neg (by decide), if_neg (by decide),
      if_pos ⟨rfl, rfl, ht⟩]
    unfold stepFree
    rw [hr]
    simp only [Bool.true_eq_false, if_false, if_true]
    split_ifs <;> rfl
  · rw [cleanLoop_elem false seg hseg hdd t out dd ht]
    unfold stepFree
    by_cases hr : realElem seg = true
    · simp [hr, hdd]
    · simp [hr]

/-- The loop on a path that is not rooted, given by its elements. -/
theorem cleanLoop_unsplit_free (segs : List (List Char)) (hseg : ∀ e ∈ segs, '/' ∉ e)
    (out : List Char) (dd : Nat) :
    cleanLoop false false (unsplit segs) out dd = (segs.foldl stepFree (out, dd)).1 := by
  induction segs generalizing out dd with
  | nil => simp [unsplit, cleanLoop_nil]
  | cons e segs ih =>
    have he : '/' ∉ e := hseg e (by simp)
    have hrest : ∀ e ∈ segs, '/' ∉ e := fun x hx => hseg x (List.mem_cons_of_mem _ hx)
    cases segs with
    | nil =>
      have := cleanLoop_elem_free e he [] out dd (Or.inl rfl)
      rw [List.append_nil] at this
      rw [unsplit, this, cleanLoop_nil]
      rfl
    | cons f segs =>
      rw [unsplit, cleanLoop_elem_free e he ('/' :: unsplit (f :: segs)) out dd (Or.inr rfl),
        cleanLoop_false_slash, ih hrest]
      rfl

theorem unsplit_concat (L : List (List Char)) (n : List Char) :
    unsplit (L ++ [n]) = if L = [] then n else unsplit L ++ '/' :: n := by
  induction L with
  | nil => rfl
  | cons e L ih =>
    rw [if_neg (by simp)]
    cases L with
    | nil => rfl
    | cons f L =>
      rw [if_neg (by simp)] at ih
      show e ++ '/' :: unsplit ((f :: L) ++ [n]) = (e ++ '/' :: unsplit (f :: L)) ++ '/' :: n
      rw [ih]
      simp

theorem unsplit_eq_nil (L : List (List Char)) (h : ∀ n ∈ L, n ≠ []) : unsplit L = [] ↔ L = [] := by
  cases L with
  | nil => simp [unsplit]
  | cons e L =>
    have he := h e (by simp)
    cases L with
    | nil => simp [unsplit, he]
    | cons f L => simp [unsplit]

theorem unsplit_length_append_le (A : List (List Char)) :
    ∀ B : List (List Char), (unsplit A).length ≤ (unsplit (A ++ B)).length := by
  intro B
  induction B using List.reverseRecOn with
  | nil => simp
  | append_singleton B n ih =>
    rw [← List.append_assoc, unsplit_concat]
    split_ifs with h0
    · have hA : A = [] := (List.append_eq_nil.mp h0).1
      rw [hA]
      simp [unsplit]
    · simp only [List.length_append, List.length_cons]
      omega

theorem splitSlash_unsplit (L : List (List Char)) (hL : L ≠ []) (h : ∀ e ∈ L, '/' ∉ e) :
    splitSlash (unsplit L) = L := by
  induction L with
  | nil => exact absurd rfl hL
  | cons e L ih =>
    have he := h e (by simp)
    cases L with
    | nil => exact splitSlash_of_no_slash e he
    | cons f L =>
      show splitSlash (e ++ '/' :: unsplit (f :: L)) = _
      rw [splitSlash_append_slash, splitSlash_of_no_slash e he,
        ih (by simp) (fun x hx => h x (List.mem_cons_of_mem _ hx))]
      rfl

/-- Where the cut of the `..` case stops, exactly. -/
theorem backtrack_eq (buf : List Char) (dd b : Nat)
    (hstop : b = 0 ∨ b ≤ dd ∨ buf.getD b '/' = '/') :
    ∀ w, b ≤ w → (∀ i, b < i → i ≤ w → dd < i ∧ buf.getD i '/' ≠ '/') →
      backtrack buf dd w = b := by
  intro w
  induction w with
  | zero =>
    intro hb _
    have : b = 0 := by omega
    rw [this]
    rfl
  | succ w ih =>
    intro hb hall
    unfold backtrack
    by_cases hbw : b = w + 1
    · rw [if_neg]
      · exact hbw.symm
      · rintro ⟨h1, h2⟩
        rcases hstop with h | h | h
        · omega
        · omega
        · rw [hbw] at h
          exact h2 h
    · rw [if_pos (hall (w + 1) (by omega) (le_refl _))]
      exact ih (by omega) (fun i h1 h2 => hall i h1 (by omega))

theorem getD_ne_slash (n : List Char) (hn : '/' ∉ n) (i : Nat) (hi : i < n.length) :
    n.getD i '/' ≠ '/' := by
  rw [List.getD_eq_getElem _ _ hi]
  intro h0
  exact hn (h0 ▸ List.getElem_mem hi)

theorem getD_append_cons_gt (A n : List Char) (hn : '/' ∉ n) (i : Nat) (h1 : A.length < i)
    (h2 : i ≤ A.length + n.length) : (A ++ '/' :: n).getD i '/' ≠ '/' := by
  have hi : i < (A ++ '/' :: n).length := by
    simp only [List.length_append, List.length_cons]
    omega
  rw [List.getD_eq_getElem _ _ hi, List.getElem_append_right (by omega)]
  intro h0
  have key : ∀ (j : Nat) (hj : j < ('/' :: n).length), 0 < j → ('/' :: n)[j] ≠ '/' := by
    intro j hj hj0 h1
    cases j with
    | zero => omega
    | succ j =>
      simp only [List.getElem_cons_succ] at h1
      exact hn (h1 ▸ List.getElem_mem _)
  exact key _ _ (by omega) h0

theorem getD_append_cons_eq (A n : List Char) : (A ++ '/' :: n).getD A.length '/' = '/' := by
  have hi : A.length < (A ++ '/' :: n).length := by
    simp only [List.length_append, List.length_cons]
    omega
  rw [List.getD_eq_getElem _ _ hi, List.getElem_append_right (le_refl _)]
  simp

/-- The buffer and the bound of a path that is not rooted: the buffer holds
some `..` elements, up to the bound, and then names. -/
theorem stepFree_shape (st : List Char × Nat) (seg : List Char) (hseg : '/' ∉ seg)
    (h : ∃ (k : Nat) (names : List (List Char)),
      st.1 = unsplit (List.replicate k ['.', '.'] ++ names) ∧
      st.2 = (unsplit (List.replicate k ['.', '.'])).length ∧
      ∀ n ∈ names, (n ≠ [] ∧ '/' ∉ n) ∧ n ≠ ['.'] ∧ n ≠ ['.', '.']) :
    ∃ (k : Nat) (names : List (List Char)),
      (stepFree st seg).1 = unsplit (List.replicate k ['.', '.'] ++ names) ∧
      (stepFree st seg).2 = (unsplit (List.replicate k ['.', '.'])).length ∧
      ∀ n ∈ names, (n ≠ [] ∧ '/' ∉ n) ∧ n ≠ ['.'] ∧ n ≠ ['.', '.'] := by
  obtain ⟨k, names, hout, hdd, hnames⟩ := h
  rcases st with ⟨out, dd⟩
  simp only at hout hdd
  have hall : ∀ n ∈ List.replicate k ['.', '.'] ++ names, n ≠ [] := by
    intro n hn
    rcases List.mem_append.mp hn with h1 | h1
    · rw [List.eq_of_mem_replicate h1]
      simp
    · exact (hnames n h1).1.1
  unfold stepFree
  by_cases hr : realElem seg = false
  · rw [if_pos hr]
    exact ⟨k, names, hout, hdd, hnames⟩
  · rw [if_neg hr]
    have hreal : seg ≠ [] ∧ seg ≠ ['.'] := by simpa [realElem] using hr
    by_cases hs : seg = ['.', '.']
    · rw [if_pos hs]
      simp only
      rcases List.eq_nil_or_concat names with hn | ⟨names', n, hn⟩
      · -- no name in the buffer: one more `..` is written
        subst hn
        rw [List.append_nil] at hout hall
        have hlen : ¬ dd < out.length := by
          rw [hout, hdd]
          omega
        rw [if_neg hlen]
        refine ⟨k + 1, [], ?_, ?_, by simp⟩
        · rw [List.append_nil, List.replicate_succ', unsplit_concat]
          by_cases hk : List.replicate k ['.', '.'] = []
          · rw [if_pos hk, hout, hk]
            rfl
          · rw [if_neg hk]
            have hpos : 0 < out.length := by
              rw [hout]
              exact List.length_pos.mpr (fun h0 => hk ((unsplit_eq_nil _ hall).mp h0))
            simp only [hpos, if_true]
            rw [← hout]
            simp
        · simp only
          rw [List.replicate_succ', unsplit_concat]
          by_cases hk : List.replicate k ['.', '.'] = []
          · rw [if_pos hk, hout, hk]
            rfl
          · rw [if_neg hk]
            have hpos : 0 < out.length := by
              rw [hout]
              exact List.length_pos.mpr (fun h0 => hk ((unsplit_eq_nil _ hall).mp h0))
            simp only [hpos, if_true]
            rw [← hout]
            simp
      · -- a name in the buffer: it is cut off
        rw [List.concat_eq_append] at hn
        subst hn
        have hn := hnames n (by simp)
        have hnpos : 0 < n.length := List.length_pos.mpr hn.1.1
        rw [← List.append_assoc, unsplit_concat] at hout
        have hle : dd ≤ (unsplit (List.replicate k ['.', '.'] ++ names')).length := by
          rw [hdd]
          exact unsplit_length_append_le _ _
        have hnames' : ∀ x ∈ names', (x ≠ [] ∧ '/' ∉ x) ∧ x ≠ ['.'] ∧ x ≠ ['.', '.'] :=
          fun x hx => hnames x (by simp [hx])
        by_cases hL : List.replicate k ['.', '.'] ++ names' = []
        · rw [if_pos hL] at hout
          rw [hL] at hle
          have hdd0 : dd = 0 := by simpa [unsplit] using hle
          subst hout
          rw [if_pos (by omega)]
          have hb : backtrack out dd (out.length - 1) = 0 := by
            apply backtrack_eq out dd 0 (Or.inl rfl) _ (Nat.zero_le _)
            intro i h1 h2
            exact ⟨by omega, getD_ne_slash out hn.1.2 i (by omega)⟩
          rw [hb]
          refine ⟨k, names', ?_, hdd, hnames'⟩
          rw [hL]
          rfl
        · rw [if_neg hL] at hout
          have hlt : dd < out.length := by
            rw [hout]
            simp only [List.length_append, List.length_cons]
            omega
          rw [if_pos hlt]
          have hlen : out.length - 1 =
              (unsplit (List.replicate k ['.', '.'] ++ names')).length + n.length := by
            rw [hout]
            simp only [List.length_append, List.length_cons]
            omega
          have hstop : (unsplit (List.replicate k ['.', '.'] ++ names')).length = 0 ∨
              (unsplit (List.replicate k ['.', '.'] ++ names')).length ≤ dd ∨
              out.getD (unsplit (List.replicate k ['.', '.'] ++ names')).length '/' = '/' := by
            right; right
            rw [hout]
            exact getD_append_cons_eq _ _
          have hrun : ∀ i, (unsplit (List.replicate k ['.', '.'] ++ names')).length < i →
              i ≤ out.length - 1 → dd < i ∧ out.getD i '/' ≠ '/' := by
            intro i h1 h2
            refine ⟨by omega, ?_⟩
            rw [hout]
            exact getD_append_cons_gt _ _ hn.1.2 i h1 (by omega)
          have hb := backtrack_eq out dd _ hstop (out.length - 1) (by omega) hrun
          rw [hb]
          refine ⟨k, names', ?_, hdd, hnames'⟩
          simp only
          rw [hout]
          simp
    · rw [if_neg hs]
      refine ⟨k, names ++ [seg], ?_, hdd, ?_⟩
      · simp only
        rw [← List.append_assoc, unsplit_concat]
        by_cases hL : List.replicate k ['.', '.'] ++ names = []
        · rw [if_pos hL, hout, hL]
          simp [unsplit, push, addSlash]
        · rw [if_neg hL]
          have hpos : out.length ≠ 0 := by
            rw [hout]
            exact fun h0 => hL ((unsplit_eq_nil _ hall).mp (List.length_eq_zero.mp h0))
          have hadd : push false out seg = out ++ '/' :: seg := by
            simp [push, addSlash, hpos]
          rw [hadd, hout]
      · intro x hx
        rcases List.mem_append.mp hx with h1 | h1
        · exact hnames x h1
        · have : x = seg := by simpa using h1
          rw [this]
          exact ⟨⟨hreal.1, hseg⟩, hreal.2, hs⟩

theorem foldl_stepFree_shape (segs : List (List Char)) (hseg : ∀ e ∈ segs, '/' ∉ e) :
    ∀ (st : List Char × Nat),
      (∃ (k : Nat) (names : List (List Char)),
        st.1 = unsplit (List.replicate k ['.', '.'] ++ names) ∧
        st.2 = (unsplit (List.replicate k ['.', '.'])).length ∧
        ∀ n ∈ names, (n ≠ [] ∧ '/' ∉ n) ∧ n ≠ ['.'] ∧ n ≠ ['.', '.']) →
      ∃ (k : Nat) (names : List (List Char)),
        (segs.foldl stepFree st).1 = unsplit (List.replicate k ['.', '.'] ++ names) ∧
        ∀ n ∈ names, (n ≠ [] ∧ '/' ∉ n) ∧ n ≠ ['.'] ∧ n ≠ ['.', '.'] := by
  induction segs with
  | nil =>
    intro st h
    obtain ⟨k, names, h1, _, h3⟩ := h
    exact ⟨k, names, h1, h3⟩
  | cons e segs ih =>
    intro st h
    exact ih (fun x hx => hseg x (List.mem_cons_of_mem _ hx)) _
      (stepFree_shape st e (hseg e (by simp)) h)

/-- The elements of the buffer of a rooted path are empty or names; one more
element of the path keeps it so. -/
theorem stepRooted_names (out seg : List Char) (hseg : '/' ∉ seg)
    (hhead : out.head? = some '/')
    (h : ∀ e ∈ splitSlash out, e = [] ∨ ((e ≠ [] ∧ '/' ∉ e) ∧ e ≠ ['.'] ∧ e ≠ ['.', '.'])) :
    ∀ e ∈ splitSlash (stepRooted out seg),
      e = [] ∨ ((e ≠ [] ∧ '/' ∉ e) ∧ e ≠ ['.'] ∧ e ≠ ['.', '.']) := by
  unfold stepRooted
  by_cases hr : realElem seg = false
  · rw [if_pos hr]
    exact h
  · rw [if_neg hr]
    have hreal : seg ≠ [] ∧ seg ≠ ['.'] := by simpa [realElem] using hr
    by_cases hs : seg = ['.', '.']
    · rw [if_pos hs]
      by_cases hlen : 1 < out.length
      · rw [if_pos hlen]
        have hge := backtrack_ge out 1 (out.length - 1) (by omega)
        obtain ⟨hle, hstop⟩ := backtrack_stop out 1 (out.length - 1)
        rcases hstop with h1 | h1
        · have hk : backtrack out 1 (out.length - 1) = 1 := by omega
          rw [hk]
          match out, hhead with
          | c :: rest, hhead =>
            have hc : c = '/' := by simpa using hhead
            subst hc
            intro e he
            left
            simpa [splitSlash] using he
        · intro e he
          exact h e (splitSlash_take_of_slash out _ (by omega) h1 _ he)
      · rw [if_neg hlen]
        exact h
    · rw [if_neg hs]
      have hproper : (seg ≠ [] ∧ '/' ∉ seg) ∧ seg ≠ ['.'] ∧ seg ≠ ['.', '.'] :=
        ⟨⟨hreal.1, hseg⟩, hreal.2, hs⟩
      by_cases hlen : out.length = 1
      · match out, hhead, hlen with
        | [c], hhead, _ =>
          have hc : c = '/' := by simpa using hhead
          subst hc
          have hpush : push true ['/'] seg = '/' :: seg := by simp [push, addSlash]
          rw [hpush, splitSlash_slash, splitSlash_of_no_slash seg hseg]
          intro e he
          rcases List.mem_cons.mp he with h0 | h0
          · exact Or.inl h0
          · right
            have : e = seg := by simpa using h0
            rw [this]
            exact hproper
      · have hpush : push true out seg = out ++ '/' :: seg := by simp [push, addSlash, hlen]
        rw [hpush, splitSlash_append_slash, splitSlash_of_no_slash seg hseg]
        intro e he
        rcases List.mem_append.mp he with h0 | h0
        · exact h e h0
        · right
          have : e = seg := by simpa using h0
          rw [this]
          exact hproper

theorem foldl_stepRooted_names (segs : List (List Char)) (hseg : ∀ e ∈ segs, '/' ∉ e) :
    ∀ (out : List Char), out.head? = some '/' →
      (∀ e ∈ splitSlash out, e = [] ∨ ((e ≠ [] ∧ '/' ∉ e) ∧ e ≠ ['.'] ∧ e ≠ ['.', '.'])) →
      ∀ e ∈ splitSlash (segs.foldl stepRooted out),
        e = [] ∨ ((e ≠ [] ∧ '/' ∉ e) ∧ e ≠ ['.'] ∧ e ≠ ['.', '.']) := by
  induction segs with
  | nil => intro out _ h; exact h
  | cons e segs ih =>
    intro out hhead h
    have h1 := stepRooted_good out e (hseg e (by simp)) hhead
    have hhead2 : (stepRooted out e).head? = some '/' := by
      unfold stepRooted
      split_ifs
      · exact hhead
      · rw [head?_take_of_pos _ _ (backtrack_ge out 1 (out.length - 1) (by omega))]
        exact hhead
      · exact hhead
      · exact head?_append_of_head? _ _ _ (head?_addSlash _ _ _ hhead)
    exact ih (fun x hx => hseg x (List.mem_cons_of_mem _ hx)) _ hhead2
      (stepRooted_names out e (hseg e (by simp)) hhead h)

/-- Resolution along empty elements stays where it is. -/
theorem walk_empty (es : List String) (h : ∀ e ∈ es, e = "") : ∀ cur, walk cur es = cur := by
  induction es with
  | nil => intro cur; rfl
  | cons e es ih =>
    intro cur
    rw [walk, if_pos (Or.inl (h e (by simp)))]
    exact ih (fun x hx => h x (List.mem_cons_of_mem _ hx)) cur

/-- Resolution along `..` elements ends at the start or above it. -/
theorem walk_dotdots (k : Nat) : ∀ cur, walk cur (List.replicate k "..") <+: cur := by
  induction k with
  | zero => intro cur; exact List.prefix_refl _
  | succ k ih =>
    intro cur
    rw [List.replicate_succ, walk, if_neg (by decide), if_pos rfl]
    exact (ih cur.dropLast).trans (List.dropLast_prefix cur)

/-- The last element of a path whose elements are empty or names is a name,
if there is one. -/
theorem undeletable_names (path : String)
    (h : ∀ e ∈ splitSlash path.data,
      e = [] ∨ ((e ≠ [] ∧ '/' ∉ e) ∧ e ≠ ['.'] ∧ e ≠ ['.', '.']))
    (hu : undeletable path = true) : ∀ e ∈ elements path, e = "" := by
  have hnames : ∀ e ∈ (elements path).filter (fun e => e ≠ ""), e ≠ ".." ∧ e ≠ "." := by
    intro e he
    rw [List.mem_filter] at he
    obtain ⟨n, hn, rfl⟩ := List.mem_map.mp he.1
    rcases h n hn with h0 | h0
    · exfalso
      rw [h0] at he
      simp at he
    · exact ⟨mk_ne_dotdot n h0.2.2, mk_ne_dot n h0.2.1⟩
  unfold undeletable lastElement at hu
  cases hl : ((elements path).filter (fun e => e ≠ "")).getLast? with
  | none =>
    rw [List.getLast?_eq_none_iff] at hl
    intro e he
    by_contra hne
    have : e ∈ (elements path).filter (fun e => e ≠ "") := by
      rw [List.mem_filter]
      exact ⟨he, by simpa using hne⟩
    rw [hl] at this
    simp at this
  | some e =>
    exfalso
    rw [hl] at hu
    have hmem := List.mem_of_getLast?_eq_some hl
    have := hnames e hmem
    simp [this.1, this.2] at hu

/-- A cleaned path whose last element `rmdir` refuses names the working
directory or a directory above it. -/
theorem cleanChars_undeletable (os : OS) (s : List Char) (hs : s ≠ [])
    (hu : undeletable (String.mk (cleanChars s)) = true) :
    os.resolve (String.mk (cleanChars s)) <+: os.cwd := by
  by_cases hr : s.head? = some '/'
  · match s, hs, hr with
    | c :: s', _, hr =>
      have hc : c = '/' := by simpa using hr
      subst hc
      obtain ⟨hclean, hhead⟩ := cleanChars_rooted s'
      have hfold := cleanLoop_unsplit_rooted (splitSlash s') (mem_splitSlash_no_slash s') ['/']
      rw [unsplit_splitSlash] at hfold
      have hel := foldl_stepRooted_names (splitSlash s') (mem_splitSlash_no_slash s') ['/'] rfl
        (by decide)
      rw [← hfold, ← hclean] at hel
      have hall := undeletable_names (String.mk (cleanChars ('/' :: s'))) hel hu
      unfold OS.resolve
      have hh : (String.mk (cleanChars ('/' :: s'))).data.head? = some '/' := by
        show (cleanChars ('/' :: s')).head? = _
        rw [hclean]
        exact hhead
      rw [hh, if_pos rfl, walk_empty _ hall]
      exact List.nil_prefix
  · rw [cleanChars_unrooted s hs hr] at hu ⊢
    have hfold := cleanLoop_unsplit_free (splitSlash s) (mem_splitSlash_no_slash s) [] 0
    rw [unsplit_splitSlash] at hfold
    obtain ⟨k, names, hshape, hnames⟩ :=
      foldl_stepFree_shape (splitSlash s) (mem_splitSlash_no_slash s) ([], 0)
        ⟨0, [], rfl, rfl, by simp⟩
    rw [← hfold] at hshape
    by_cases hlen : (cleanLoop false false s [] 0).length = 0
    · rw [if_pos hlen]
      have : os.resolve (String.mk ['.']) = os.cwd := by
        simp [OS.resolve, elements, splitSlash, walk]
      rw [this]
    · rw [if_neg hlen] at hu ⊢
      have hL : List.replicate k ['.', '.'] ++ names ≠ [] := by
        intro h0
        apply hlen
        rw [hshape, h0]
        rfl
      have hslash : ∀ e ∈ List.replicate k ['.', '.'] ++ names, '/' ∉ e := by
        intro e he
        rcases List.mem_append.mp he with h1 | h1
        · rw [List.eq_of_mem_replicate h1]
          decide
        · exact (hnames e h1).1.2
      have hsplit : splitSlash (cleanLoop false false s [] 0) =
          List.replicate k ['.', '.'] ++ names := by
        rw [hshape]
        exact splitSlash_unsplit _ hL hslash
      rcases List.eq_nil_or_concat names with hn | ⟨names', n, hn⟩
      · subst hn
        rw [List.append_nil] at hsplit hL hshape
        have hk : k ≠ 0 := by
          intro h0
          apply hL
          rw [h0]
          rfl
        obtain ⟨k', rfl⟩ := Nat.exists_eq_succ_of_ne_zero hk
        have hh : (String.mk (cleanLoop false false s [] 0)).data.head? ≠ some '/' := by
          show (cleanLoop false false s [] 0).head? ≠ _
          rw [hshape, List.replicate_succ]
          cases List.replicate k' ['.', '.'] <;> simp [unsplit]
        unfold OS.resolve elements
        rw [if_neg hh]
        show walk os.cwd ((splitSlash (cleanLoop false false s [] 0)).map String.mk) <+: _
        rw [hsplit, List.map_replicate]
        exact walk_dotdots _ _
      · exfalso
        rw [List.concat_eq_append] at hn
        subst hn
        have hn := hnames n (by simp)
        have hlast : lastElement (String.mk (cleanLoop false false s [] 0)) =
            some (String.mk n) := by
          unfold lastElement elements
          show (((splitSlash (cleanLoop false false s [] 0)).map String.mk).filter
            (fun e => e ≠ "")).getLast? = _
          rw [hsplit, ← List.append_assoc, List.map_append, List.filter_append]
          have : List.filter (fun e => decide (e ≠ "")) (List.map String.mk [n]) =
              [String.mk n] := by
            simp [mk_ne_empty n hn.1.1]
          rw [this, List.getLast?_append]
          simp
        unfold undeletable at hu
        rw [hlast] at hu
        simp [mk_ne_dotdot n hn.2.2, mk_ne_dot n hn.2.1] at hu

/-- What `path.Join` returns, unless it is empty, is a cleaned path. -/
theorem Join_eq_cleanChars (l : List String) (hne : Join l ≠ "") :
    ∃ s, s ≠ [] ∧ Join l = String.mk (cleanChars s) := by
  induction l with
  | nil => exact absurd rfl hne
  | cons e rest ih =>
    by_cases he : e = ""
    · rw [Join, if_pos he] at hne ⊢
      exact ih hne
    · rw [Join, if_neg he]
      refine ⟨joinSlash (e :: rest), ?_, rfl⟩
      have hd : e.data ≠ [] := by
        intro h0
        apply he
        cases e
        simp only at h0
        rw [h0]
      cases rest with
      | nil => exact hd
      | cons f rest =>
        show e.data ++ '/' :: joinSlash (f :: rest) ≠ []
        simp

/-- A non-empty path that `path.Join` returns and whose last element `rmdir`
refuses names the working directory or a directory above it. -/
theorem Join_undeletable (os : OS) (l : List String) (hne : Join l ≠ "")
    (hu : undeletable (Join l) = true) : os.resolve (Join l) <+: os.cwd := by
  obtain ⟨s, hs, hj⟩ := Join_eq_cleanChars l hne
  rw [hj] at hu ⊢
  exact cleanChars_undeletable os s hs hu


/-! ## Helper lemmas on the program -/

theorem lookupD_eq_empty_of (m : StringMap) (k : String)
    (h : m.lookup k = none ∨ m.lookup k = some "") : lookupD m k = "" := by
  rcases h with h | h <;> simp [lookupD, h]

/-- `provisionAt` makes one call, `os.MkdirAll`, and the state after is the
state after that call. -/
theorem provisionAt_state (p : hostPathProvisioner) (options : VolumeOptions) (P : String)
    (os : OS) :
    (p.provisionAt options P os).2 = (os.MkdirAll (Join [p.rootPath, Join [P, options.PVName]])).2 := by
  unfold hostPathProvisioner.provisionAt
  dsimp only
  generalize os.MkdirAll (Join [p.rootPath, Join [P, options.PVName]]) = r
  rcases r with ⟨_ | e, os1⟩ <;> rfl

/-- A successful `os.MkdirAll` makes `provisionAt` return the descriptor. -/
theorem provisionAt_ok (p : hostPathProvisioner) (options : VolumeOptions) (P : String)
    (os : OS) (h : (os.MkdirAll (p.localPath (Join [P, options.PVName]))).1 = none) :
    (p.provisionAt options P os).1 = .ok (p.pv options (Join [P, options.PVName])) := by
  unfold hostPathProvisioner.provisionAt
  dsimp only
  revert h
  generalize os.MkdirAll (Join [p.rootPath, Join [P, options.PVName]]) = r
  rcases r with ⟨_ | e, os1⟩
  · intro _; rfl
  · intro h; cases h

/-- When `provisionAt` returns a descriptor, it is the one built from the
request, and `os.MkdirAll` had succeeded. -/
theorem provisionAt_inv (p : hostPathProvisioner) (options : VolumeOptions) (P : String)
    (os : OS) (pv : PersistentVolume) (h : (p.provisionAt options P os).1 = .ok pv) :
    pv = p.pv options (Join [P, options.PVName]) ∧
      (os.MkdirAll (p.localPath (Join [P, options.PVName]))).1 = none := by
  unfold hostPathProvisioner.provisionAt at h
  dsimp only at h
  revert h
  generalize os.MkdirAll (Join [p.rootPath, Join [P, options.PVName]]) = r
  rcases r with ⟨_ | e, os1⟩
  · intro h
    simp only [Except.ok.injEq] at h
    exact ⟨h.symm, rfl⟩
  · intro h; cases h

/-- When the three tests of `Provision` pass, it goes on to `provisionAt`. -/
theorem provision_eq_provisionAt (p : hostPathProvisioner) (options : VolumeOptions) (os : OS)
    (node : Node) (hparam : lookupD options.Parameters storageClassParamName ≠ "")
    (hnode : p.clientset.NodesGet p.nodeName = .ok node)
    (hpath : lookupD node.Annotations
      (nodeAnnotationFormat (lookupD options.Parameters storageClassParamName)) ≠ "")
    (hpvc : options.PVC.Annotations.lookup pvcAnnotation = none ∨
      options.PVC.Annotations.lookup pvcAnnotation = some p.nodeName) :
    p.Provision options os =
      p.provisionAt options (lookupD node.Annotations
        (nodeAnnotationFormat (lookupD options.Parameters storageClassParamName))) os := by
  unfold hostPathProvisioner.Provision
  dsimp only
  simp only [hparam, if_false, hnode, hpath]
  rcases hpvc with h | h <;> simp [h]

/-- When `Provision` returns a descriptor, the three tests had passed. -/
theorem provision_inv (p : hostPathProvisioner) (options : VolumeOptions) (os : OS)
    (pv : PersistentVolume) (h : (p.Provision options os).1 = .ok pv) :
    ∃ node, p.clientset.NodesGet p.nodeName = .ok node ∧
      lookupD options.Parameters storageClassParamName ≠ "" ∧
      lookupD node.Annotations
        (nodeAnnotationFormat (lookupD options.Parameters storageClassParamName)) ≠ "" ∧
      (options.PVC.Annotations.lookup pvcAnnotation = none ∨
        options.PVC.Annotations.lookup pvcAnnotation = some p.nodeName) := by
  unfold hostPathProvisioner.Provision at h
  dsimp only at h
  by_cases h1 : lookupD options.Parameters storageClassParamName = ""
  · simp [h1] at h
  · simp only [h1, if_false] at h
    cases hn : p.clientset.NodesGet p.nodeName with
    | error e => rw [hn] at h; simp at h
    | ok node =>
      rw [hn] at h
      refine ⟨node, rfl, h1, ?_⟩
      dsimp only at h
      by_cases h2 : lookupD node.Annotations
          (nodeAnnotationFormat (lookupD options.Parameters storageClassParamName)) = ""
      · simp [h2] at h
      · refine ⟨h2, ?_⟩
        simp only [h2, if_false] at h
        cases ha : options.PVC.Annotations.lookup pvcAnnotation with
        | none => exact Or.inl rfl
        | some r =>
          rw [ha] at h
          dsimp only at h
          by_cases h3 : r = p.nodeName
          · exact Or.inr (by rw [h3])
          · simp [h3] at h

/-- With the owner's annotation and a host-path source, `Delete` is the call
of `os.RemoveAll`. -/
theorem delete_eq_RemoveAll (p : hostPathProvisioner) (volume : PersistentVolume) (os : OS)
    (source : HostPathVolumeSource)
    (h : volume.Annotations.lookup "nodeName" = some p.nodeName)
    (hsrc : volume.HostPath = some source) :
    p.Delete volume os =
      (.returned (os.RemoveAll (p.localPath source.Path)).1,
        (os.RemoveAll (p.localPath source.Path)).2) := by
  unfold hostPathProvisioner.Delete
  rw [h, hsrc]
  simp only [ne_eq, not_true_eq_false, if_false]
  generalize os.RemoveAll (Join [p.rootPath, source.Path]) = r
  rcases r with ⟨_ | e, os1⟩ <;> rfl

/-- With the owner's annotation and no host-path source, `Delete` panics and
the state is as it was. -/
theorem delete_nil_source (p : hostPathProvisioner) (volume : PersistentVolume) (os : OS)
    (h : volume.Annotations.lookup "nodeName" = some p.nodeName)
    (hsrc : volume.HostPath = none) :
    p.Delete volume os =
      (.panicked "runtime error: invalid memory address or nil pointer dereference", os) := by
  unfold hostPathProvisioner.Delete
  rw [h, hsrc]
  simp only [ne_eq, not_true_eq_false, if_false]

/-- Every call of `os.MkdirAll` is logged, whatever its result. -/
theorem MkdirAll_log (os : OS) (path : String) :
    (os.MkdirAll path).2.log = os.log ++ [Call.MkdirAll path] := by
  unfold OS.MkdirAll
  by_cases h1 : path = ""
  · simp [h1]
  · simp only [h1, if_false]
    split_ifs
    · rfl
    · rfl
    · cases os.fault <;> rfl

/-- Every call of `os.RemoveAll` is logged, whatever its result. -/
theorem RemoveAll_log (os : OS) (path : String) :
    (os.RemoveAll path).2.log = os.log ++ [Call.RemoveAll path] := by
  unfold OS.RemoveAll
  dsimp only
  repeat' split
  all_goals rfl

/-- The working directory and the device are as before after `os.RemoveAll`. -/
theorem RemoveAll_cwd_fault (os : OS) (path : String) :
    (os.RemoveAll path).2.cwd = os.cwd ∧ (os.RemoveAll path).2.fault = os.fault := by
  unfold OS.RemoveAll
  dsimp only
  repeat' split
  all_goals exact ⟨rfl, rfl⟩

/-- The calls `Provision` makes: none, or the one `os.MkdirAll` after the
three tests. -/
theorem provision_log_cases (p : hostPathProvisioner) (options : VolumeOptions) (os : OS) :
    (p.Provision options os).2.log = os.log ∨
      ∃ node, p.clientset.NodesGet p.nodeName = .ok node ∧
        lookupD node.Annotations
          (nodeAnnotationFormat (lookupD options.Parameters storageClassParamName)) ≠ "" ∧
        (p.Provision options os).2.log = os.log ++ [Call.MkdirAll (p.localPath (Join
          [lookupD node.Annotations
            (nodeAnnotationFormat (lookupD options.Parameters storageClassParamName)),
            options.PVName]))] := by
  by_cases h1 : lookupD options.Parameters storageClassParamName = ""
  · left
    unfold hostPathProvisioner.Provision
    simp [h1]
  · cases hn : p.clientset.NodesGet p.nodeName with
    | error e =>
      left
      unfold hostPathProvisioner.Provision
      simp [h1, hn]
    | ok node =>
      by_cases h2 : lookupD node.Annotations
          (nodeAnnotationFormat (lookupD options.Parameters storageClassParamName)) = ""
      · left
        unfold hostPathProvisioner.Provision
        simp [h1, hn, h2]
      · by_cases h3 : options.PVC.Annotations.lookup pvcAnnotation = none ∨
            options.PVC.Annotations.lookup pvcAnnotation = some p.nodeName
        · right
          refine ⟨node, rfl, h2, ?_⟩
          rw [provision_eq_provisionAt p options os node h1 hn h2 h3, provisionAt_state,
            MkdirAll_log]
        · left
          unfold hostPathProvisioner.Provision
          cases ha : options.PVC.Annotations.lookup pvcAnnotation with
          | none => exact absurd (Or.inl ha) h3
          | some r =>
            have hr : r ≠ p.nodeName := fun h0 => h3 (Or.inr (by rw [ha, h0]))
            simp [h1, hn, h2, ha, hr]

/-- The calls `Delete` makes: none, or the one `os.RemoveAll` on the local
path of the host-path source. -/
theorem delete_log_cases (p : hostPathProvisioner) (volume : PersistentVolume) (os : OS) :
    (p.Delete volume os).2.log = os.log ∨
      ∃ source, volume.HostPath = some source ∧
        (p.Delete volume os).2.log = os.log ++ [Call.RemoveAll (p.localPath source.Path)] := by
  cases h : volume.Annotations.lookup "nodeName" with
  | none =>
    left
    unfold hostPathProvisioner.Delete
    rw [h]
  | some ann =>
    by_cases hne : ann = p.nodeName
    · cases hsrc : volume.HostPath with
      | none =>
        left
        rw [delete_nil_source p volume os (by rw [h, hne]) hsrc]
      | some source =>
        right
        refine ⟨source, rfl, ?_⟩
        rw [delete_eq_RemoveAll p volume os source (by rw [h, hne]) hsrc]
        exact RemoveAll_log os _
    · left
      unfold hostPathProvisioner.Delete
      rw [h]
      simp [hne]

/-- What a successful `os.MkdirAll` leaves: the path is not empty, every
location on the way to the path is a directory, the rest of the tree is as
before, and something was created only on a device without fault. -/
theorem MkdirAll_ok (os : OS) (path : String) (h : (os.MkdirAll path).1 = none) :
    path ≠ "" ∧
    (∀ q, (os.MkdirAll path).2.tree q =
      if q.isPrefixOf (os.resolve path) then some Kind.dir else os.tree q) ∧
    (os.MkdirAll path).2.cwd = os.cwd ∧
    (os.MkdirAll path).2.fault = os.fault ∧
    (os.tree (os.resolve path) ≠ some Kind.dir → os.fault = none) := by
  by_cases h1 : path = ""
  · simp [OS.MkdirAll, h1] at h
  · refine ⟨h1, ?_⟩
    unfold OS.MkdirAll at h ⊢
    simp only [h1, if_false] at h ⊢
    by_cases h2 : (os.resolve path).inits.any (fun q => os.tree q = some Kind.file) = true
    · simp [h2] at h
    · simp only [h2] at h ⊢
      by_cases h3 : (os.resolve path).inits.all (fun q => os.tree q = some Kind.dir) = true
      · simp only [h3, if_true]
        refine ⟨?_, rfl, rfl, ?_⟩
        · intro q
          by_cases hq : q.isPrefixOf (os.resolve path) = true
          · simp only [hq, if_true]
            rw [List.all_eq_true] at h3
            have := h3 q (by
              rw [List.mem_inits]
              exact List.isPrefixOf_iff_prefix.mp hq)
            simpa using this
          · simp [hq]
        · intro hk
          exfalso
          apply hk
          rw [List.all_eq_true] at h3
          have := h3 (os.resolve path) (by
            rw [List.mem_inits])
          simpa using this
      · simp only [h3] at h ⊢
        cases hf : os.fault with
        | some e => rw [hf] at h; simp at h
        | none =>
          refine ⟨fun q => ?_, ?_, ?_, fun _ => ?_⟩ <;> simp

/-- `os.RemoveAll` does nothing and succeeds on the empty path and on a
path that names nothing, has no regular file on the way and does not end in
`.`, whatever the state of the device. -/
theorem RemoveAll_eq_absent (os : OS) (path : String)
    (h : path = "" ∨ (endsWithDot path = false ∧ os.blocked path = false ∧
      os.tree (os.resolve path) = none)) :
    os.RemoveAll path = (none, { os with log := os.log ++ [Call.RemoveAll path] }) := by
  unfold OS.RemoveAll
  rcases h with h | ⟨h1, h2, h3⟩
  · simp [h]
  · by_cases h0 : path = ""
    · simp [h0]
    · simp only [h0, if_false, h1, h2, Bool.false_eq_true]
      rw [h3]

/-- `os.RemoveAll` removes what is at and below the path when something is
there, no regular file is on the way, the device has no fault and the last
element is a name. -/
theorem RemoveAll_eq_removed (os : OS) (path : String) (kd : Kind) (e : String)
    (h0 : path ≠ "") (h1 : endsWithDot path = false) (h2 : os.blocked path = false)
    (h3 : os.tree (os.resolve path) = some kd) (h4 : os.fault = none)
    (h5 : lastElement path = some e) (h6 : e ≠ "..") (h7 : e ≠ ".") :
    os.RemoveAll path =
      (none, { os with
        log := os.log ++ [Call.RemoveAll path],
        tree := fun q => if (os.resolve path).isPrefixOf q then none else os.tree q }) := by
  unfold OS.RemoveAll
  simp only [h0, if_false, h1, h2, Bool.false_eq_true]
  rw [h3]
  dsimp only
  rw [h4]
  dsimp only
  rw [h5]
  dsimp only
  rw [if_neg h6, if_neg h7]

/-- A successful `os.RemoveAll` did nothing on a path that named nothing, or
removed what was at and below the path. -/
theorem RemoveAll_ok_cases (os : OS) (path : String) (h : (os.RemoveAll path).1 = none) :
    ((path = "" ∨ (endsWithDot path = false ∧ os.blocked path = false ∧
        os.tree (os.resolve path) = none)) ∧
      os.RemoveAll path = (none, { os with log := os.log ++ [Call.RemoveAll path] })) ∨
    (path ≠ "" ∧ endsWithDot path = false ∧ os.blocked path = false ∧
      os.tree (os.resolve path) ≠ none ∧
      os.RemoveAll path =
        (none, { os with
          log := os.log ++ [Call.RemoveAll path],
          tree := fun q => if (os.resolve path).isPrefixOf q then none else os.tree q })) := by
  by_cases h0 : path = ""
  · left
    exact ⟨Or.inl h0, RemoveAll_eq_absent os path (Or.inl h0)⟩
  · by_cases h1 : endsWithDot path = true
    · exfalso
      unfold OS.RemoveAll at h
      simp [h0, h1] at h
    · have h1' : endsWithDot path = false := by simpa using h1
      by_cases h2 : os.blocked path = true
      · exfalso
        unfold OS.RemoveAll at h
        simp only [h0, if_false, h1', h2, Bool.false_eq_true, if_true] at h
        split_ifs at h
      · have h2' : os.blocked path = false := by simpa using h2
        by_cases h3 : os.tree (os.resolve path) = none
        · left
          exact ⟨Or.inr ⟨h1', h2', h3⟩, RemoveAll_eq_absent os path (Or.inr ⟨h1', h2', h3⟩)⟩
        · right
          refine ⟨h0, h1', h2', h3, ?_⟩
          obtain ⟨kd, hkd⟩ := Option.ne_none_iff_exists'.mp h3
          unfold OS.RemoveAll at h
          simp only [h0, if_false, h1', h2', Bool.false_eq_true] at h
          rw [hkd] at h
          dsimp only at h
          by_cases h4 : os.fault = none
          · rw [h4] at h
            dsimp only at h
            by_cases h5 : lastElement path = none
            · exfalso
              rw [h5] at h
              simp at h
            · obtain ⟨e, he⟩ := Option.ne_none_iff_exists'.mp h5
              rw [he] at h
              dsimp only at h
              by_cases h6 : e = ".."
              · exfalso
                rw [if_pos h6] at h
                simp at h
              · rw [if_neg h6] at h
                by_cases h7 : e = "."
                · exfalso
                  rw [if_pos h7] at h
                  simp at h
                · exact RemoveAll_eq_removed os path kd e h0 h1' h2' hkd h4 he h6 h7
          · exfalso
            obtain ⟨e, he⟩ := Option.ne_none_iff_exists'.mp h4
            rw [he] at h
            simp at h

/-- The tree after a successful `os.RemoveAll`: as before when the path named
nothing, without what was at and below the path otherwise. -/
theorem RemoveAll_ok_tree (os : OS) (path : String) (h : (os.RemoveAll path).1 = none) :
    (os.Stat path = none → (os.RemoveAll path).2.tree = os.tree) ∧
    (os.Stat path ≠ none → ∀ q, (os.RemoveAll path).2.tree q =
      if (os.resolve path).isPrefixOf q then none else os.tree q) := by
  rcases RemoveAll_ok_cases os path h with ⟨hc, heq⟩ | ⟨h0, _, _, h3, heq⟩
  · refine ⟨fun _ => by rw [heq], fun hs => ?_⟩
    exfalso
    apply hs
    unfold OS.Stat
    rcases hc with hc | ⟨_, _, hc⟩
    · rw [if_pos hc]
    · split_ifs
      · rfl
      · exact hc
  · refine ⟨fun hs => ?_, fun _ q => by rw [heq]⟩
    exfalso
    unfold OS.Stat at hs
    rw [if_neg h0] at hs
    exact h3 hs

/-- After a successful `os.RemoveAll` the path names nothing. -/
theorem RemoveAll_ok_stat (os : OS) (path : String) (h : (os.RemoveAll path).1 = none) :
    (os.RemoveAll path).2.Stat path = none := by
  have hcwd := (RemoveAll_cwd_fault os path).1
  have hres : (os.RemoveAll path).2.resolve path = os.resolve path := by
    unfold OS.resolve
    rw [hcwd]
  obtain ⟨ht1, ht2⟩ := RemoveAll_ok_tree os path h
  unfold OS.Stat
  by_cases h0 : path = ""
  · rw [if_pos h0]
  · rw [if_neg h0, hres]
    by_cases hs : os.Stat path = none
    · rw [ht1 hs]
      unfold OS.Stat at hs
      rw [if_neg h0] at hs
      exact hs
    · rw [ht2 hs]
      simp

/-- A second `os.RemoveAll` of the same path after a successful one succeeds
and changes nothing in the tree. -/
theorem RemoveAll_twice (os : OS) (path : String) (h : (os.RemoveAll path).1 = none) :
    ((os.RemoveAll path).2.RemoveAll path).1 = none ∧
      ((os.RemoveAll path).2.RemoveAll path).2.tree = (os.RemoveAll path).2.tree := by
  have hcwd := (RemoveAll_cwd_fault os path).1
  have hres : (os.RemoveAll path).2.resolve path = os.resolve path := by
    unfold OS.resolve
    rw [hcwd]
  have hstat := RemoveAll_ok_stat os path h
  obtain ⟨ht1, ht2⟩ := RemoveAll_ok_tree os path h
  have habs : path = "" ∨ (endsWithDot path = false ∧ (os.RemoveAll path).2.blocked path = false ∧
      (os.RemoveAll path).2.tree ((os.RemoveAll path).2.resolve path) = none) := by
    by_cases h0 : path = ""
    · exact Or.inl h0
    · right
      unfold OS.Stat at hstat
      rw [if_neg h0] at hstat
      have hdb : endsWithDot path = false ∧ os.blocked path = false := by
        rcases RemoveAll_ok_cases os path h with ⟨hc, _⟩ | ⟨_, h1, h2, _, _⟩
        · rcases hc with hc | hc
          · exact absurd hc h0
          · exact ⟨hc.1, hc.2.1⟩
        · exact ⟨h1, h2⟩
      refine ⟨hdb.1, ?_, hstat⟩
      have h2 := hdb.2
      unfold OS.blocked at h2 ⊢
      rw [hres]
      rw [List.any_eq_false] at h2 ⊢
      intro q hq
      have hq2 := h2 q hq
      by_cases hs : os.Stat path = none
      · rw [ht1 hs]
        exact hq2
      · rw [ht2 hs q]
        split_ifs
        · simp
        · exact hq2
  rw [RemoveAll_eq_absent _ path habs]
  exact ⟨rfl, rfl⟩

/-- In a well-formed tree every location above an existing one is a directory. -/
theorem wellFormed_above (os : OS) (hwf : os.wellFormed) :
    ∀ (t q : List String), os.tree (q ++ t) ≠ none → t ≠ [] → os.tree q = some Kind.dir := by
  intro t
  induction t using List.reverseRecOn with
  | nil => intro q _ h; exact absurd rfl h
  | append_singleton t e ih =>
    intro q hq _
    rw [← List.append_assoc] at hq
    have hpar := hwf.2 (q ++ t) e hq
    by_cases ht : t = []
    · subst ht
      simpa using hpar
    · exact ih q (by rw [hpar]; simp) ht

/-- In a well-formed tree every location on the way to a directory is a
directory. -/
theorem wellFormed_on_the_way (os : OS) (hwf : os.wellFormed) (k q : List String)
    (hk : os.tree k = some Kind.dir) (hq : q <+: k) : os.tree q = some Kind.dir := by
  obtain ⟨t, rfl⟩ := hq
  by_cases ht : t = []
  · subst ht
    simpa using hk
  · exact wellFormed_above os hwf t q (by rw [hk]; simp) ht

/-- A proper initial part of a list is an initial part of the list without
its last entry. -/
theorem isPrefix_dropLast_of_ne {α : Type} (q k : List α) (hq : q <+: k) (hne : q ≠ k) :
    q <+: k.dropLast := by
  obtain ⟨t, rfl⟩ := hq
  have ht : t ≠ [] := by
    intro h
    apply hne
    simp [h]
  rw [List.dropLast_append_of_ne_nil _ ht]
  exact List.prefix_append _ _

/-- After a successful `os.MkdirAll` the path is a directory. -/
theorem MkdirAll_ok_stat (os : OS) (path : String) (h : (os.MkdirAll path).1 = none) :
    (os.MkdirAll path).2.Stat path = some Kind.dir := by
  obtain ⟨hne, htree, hcwd, _, _⟩ := MkdirAll_ok os path h
  unfold OS.Stat OS.resolve
  rw [if_neg hne, hcwd]
  have := htree (os.resolve path)
  simpa [OS.resolve] using this

/-- A successful `os.MkdirAll` changes nothing off the way to the path. -/
theorem MkdirAll_ok_off (os : OS) (path : String) (h : (os.MkdirAll path).1 = none)
    (q : List String) (hq : ¬ q <+: os.resolve path) :
    (os.MkdirAll path).2.tree q = os.tree q := by
  obtain ⟨_, htree, _, _, _⟩ := MkdirAll_ok os path h
  rw [htree q]
  have hq2 : ¬ q.isPrefixOf (os.resolve path) = true :=
    fun hh => hq (List.isPrefixOf_iff_prefix.mp hh)
  rw [if_neg hq2]

/-- When the path named nothing and its parent directory existed, a
successful `os.MkdirAll` makes one directory, at the path. -/
theorem MkdirAll_ok_made (os : OS) (path : String) (h : (os.MkdirAll path).1 = none)
    (hwf : os.wellFormed) (habs : os.Stat path = none)
    (hpar : os.tree (os.resolve path).dropLast = some Kind.dir) (q : List String) :
    OS.madeDir os (os.MkdirAll path).2 q ↔ q = os.resolve path := by
  obtain ⟨hne, htree, _, _, _⟩ := MkdirAll_ok os path h
  unfold OS.madeDir
  rw [htree q]
  unfold OS.Stat at habs
  rw [if_neg hne] at habs
  constructor
  · rintro ⟨h1, h2⟩
    by_cases hq : q.isPrefixOf (os.resolve path) = true
    · by_contra hneq
      have hpre := isPrefix_dropLast_of_ne q _ (List.isPrefixOf_iff_prefix.mp hq) hneq
      exact h1 (wellFormed_on_the_way os hwf _ q hpar hpre)
    · simp only [hq, if_false] at h2
      exact absurd h2 h1
  · intro hq
    subst hq
    constructor
    · rw [habs]; simp
    · simp

/-- On a well-formed tree in which the path named nothing and its parent
directory existed, `os.RemoveAll` after a successful `os.MkdirAll` of the
same path, whose last element is a name, succeeds and gives the tree back. -/
theorem MkdirAll_RemoveAll_restores (os : OS) (path : String)
    (hmk : (os.MkdirAll path).1 = none) (hwf : os.wellFormed)
    (habs : os.tree (os.resolve path) = none)
    (hpar : os.tree (os.resolve path).dropLast = some Kind.dir)
    (hdel : undeletable path = false) :
    ((os.MkdirAll path).2.RemoveAll path).1 = none ∧
      ((os.MkdirAll path).2.RemoveAll path).2.tree = os.tree := by
  obtain ⟨hne, htree, hcwd, hfault, hf⟩ := MkdirAll_ok os path hmk
  have hf0 : os.fault = none := hf (by rw [habs]; simp)
  rw [hf0] at hfault
  generalize (os.MkdirAll path).2 = os1 at htree hcwd hfault ⊢
  have hres : os1.resolve path = os.resolve path := by
    unfold OS.resolve
    rw [hcwd]
  have hk1 : os1.tree (os1.resolve path) = some Kind.dir := by
    rw [hres, htree]
    simp
  have hdot : endsWithDot path = false := by
    cases hd : endsWithDot path with
    | false => rfl
    | true =>
      rw [endsWithDot_undeletable path hd] at hdel
      cases hdel
  have hblocked : os1.blocked path = false := by
    unfold OS.blocked
    rw [hres, List.any_eq_false]
    intro q hq
    have hq2 : q <+: os.resolve path := by
      have := List.mem_of_mem_dropLast hq
      rwa [List.mem_inits] at this
    rw [htree q, if_pos (List.isPrefixOf_iff_prefix.mpr hq2)]
    simp
  obtain ⟨e, he, he1, he2⟩ := undeletable_false path hdel
  rw [RemoveAll_eq_removed os1 path Kind.dir e hne hdot hblocked hk1 hfault he he1 he2]
  refine ⟨rfl, ?_⟩
  funext q
  show (if (os1.resolve path).isPrefixOf q = true then none else os1.tree q) = os.tree q
  rw [hres]
  by_cases hq : (os.resolve path).isPrefixOf q = true
  · rw [if_pos hq]
    by_contra hex
    have hpre := List.isPrefixOf_iff_prefix.mp hq
    by_cases hqk : os.resolve path = q
    · rw [← hqk] at hex
      exact hex habs.symm
    · obtain ⟨t, ht⟩ := hpre
      have ht0 : t ≠ [] := by
        intro h0
        apply hqk
        rw [← ht, h0]
        simp
      have := wellFormed_above os hwf t (os.resolve path) (by
        rw [ht]
        exact fun hh => hex hh.symm) ht0
      rw [habs] at this
      cases this
  · rw [if_neg hq, htree q]
    by_cases hqk : q.isPrefixOf (os.resolve path) = true
    · rw [if_pos hqk]
      have hpre := List.isPrefixOf_iff_prefix.mp hqk
      have hneq : q ≠ os.resolve path := by
        intro h0
        apply hq
        rw [h0]
        simp
      exact (wellFormed_on_the_way os hwf _ q hpar (isPrefix_dropLast_of_ne q _ hpre hneq)).symm
    · rw [if_neg hqk]

/-- The example machine `fastOS` has a well-formed tree. -/
theorem fastOS_wellFormed : fastOS.wellFormed := by
  refine ⟨by decide, ?_⟩
  intro q e h
  have hcases : q ++ [e] = ["mnt"] ∨ q ++ [e] = ["mnt", "data"] ∨
      q ++ [e] = ["mnt", "data", "fast"] := by
    by_contra hc
    apply h
    simp only [not_or] at hc
    simp [fastOS, volTree, hc.1, hc.2.1, hc.2.2]
  rcases hcases with h1 | h1 | h1
  · have : q = [] := by
      have := congrArg List.dropLast h1
      simpa using this
    subst this
    decide
  · have : q = ["mnt"] := by
      have := congrArg List.dropLast h1
      simpa using this
    subst this
    decide
  · have : q = ["mnt", "data"] := by
      have := congrArg List.dropLast h1
      simpa using this
    subst this
    decide

/-! ## The embedding of `path.Clean` and `path.Join` on known values -/

/-- The function `Clean` on paths whose cleaned form Go documents and tests:
clean paths, trailing and doubled slashes, `.` and `..` elements. -/
theorem Clean_known_values :
    Clean "" = "." ∧ Clean "abc" = "abc" ∧ Clean "abc/def" = "abc/def" ∧ Clean "." = "." ∧
    Clean ".." = ".." ∧ Clean "../.." = "../.." ∧ Clean "../../abc" = "../../abc" ∧
    Clean "/abc" = "/abc" ∧ Clean "/" = "/" ∧ Clean "abc/" = "abc" ∧ Clean "./" = "." ∧
    Clean "../" = ".." ∧ Clean "/abc/" = "/abc" ∧ Clean "abc//def//ghi" = "abc/def/ghi" ∧
    Clean "//abc" = "/abc" ∧ Clean "//abc//" = "/abc" ∧ Clean "abc/./def" = "abc/def" ∧
    Clean "/./abc/def" = "/abc/def" ∧ Clean "abc/." = "abc" ∧
    Clean "abc/def/ghi/../jkl" = "abc/def/jkl" ∧ Clean "abc/def/../ghi/../jkl" = "abc/jkl" ∧
    Clean "abc/def/.." = "abc" ∧ Clean "abc/def/../.." = "." ∧ Clean "/abc/def/../.." = "/" ∧
    Clean "abc/def/../../.." = ".." ∧ Clean "/abc/def/../../.." = "/" ∧
    Clean "abc/def/../../../ghi/jkl/../../../mno" = "../../mno" ∧
    Clean "abc/./../def" = "def" ∧ Clean "abc//./../def" = "def" ∧
    Clean "abc/../../././../def" = "../../def" := by
  decide

/-- The function `Join` on lists of elements whose joined form Go documents
and tests. -/
theorem Join_known_values :
    Join [] = "" ∧ Join [""] = "" ∧ Join ["a"] = "a" ∧ Join ["a", "b"] = "a/b" ∧
    Join ["a", ""] = "a" ∧ Join ["", "b"] = "b" ∧ Join ["/", "a"] = "/a" ∧
    Join ["/", ""] = "/" ∧ Join ["a/", "b"] = "a/b" ∧ Join ["a/", ""] = "a" ∧
    Join ["", ""] = "" ∧
    Join ["/data/fast", "pvc-123"] = "/data/fast/pvc-123" ∧
    Join ["/mnt", "/data/fast/pvc-123"] = "/mnt/data/fast/pvc-123" := by
  decide

/-- The local path is the nested join of the code, `Join(rootPath, Join(P,
name))`; the join of the three strings at once is another function: they
differ when `P` is `/` and the name is `..`. -/
theorem Join_nested_ne_flat :
    Join ["/mnt", Join ["/", ".."]] = "/mnt" ∧ Join ["/mnt", "/", ".."] = "/" := by
  decide

/-- With the default root `/` and an absolute node annotation, the local path
and the host path are the same string. -/
theorem localPath_eq_hostPath_at_default_root :
    (rootNode1.Provision fastRequest mntOS).1 = .ok fastVolume ∧
    (rootNode1.Provision fastRequest mntOS).2.log = [Call.MkdirAll "/data/fast/pvc-123"] ∧
    fastVolume.HostPath = some ⟨"/data/fast/pvc-123"⟩ ∧
    rootNode1.localPath "/data/fast/pvc-123" = "/data/fast/pvc-123" := by
  decide

/-- What the test of `main` accepts: both numbers are compared on their own,
the major number with 1 and the minor number with 5. -/
theorem serverVersionSupported_iff (major minor : Int) :
    serverVersionSupported major minor = true ↔ 1 ≤ major ∧ 5 ≤ minor := by
  unfold serverVersionSupported
  simp only [Bool.not_eq_true', Bool.or_eq_false_iff, decide_eq_false_iff_not, not_lt]

/-! ## The claims -/

/-- C1, as stated, fails at the specification's own example when only `/mnt`
exists: all hypotheses hold and `Provision` succeeds, but it creates three
directories, `/mnt/data`, `/mnt/data/fast` and `/mnt/data/fast/pvc-123`, not
exactly one. -/
theorem provision_makes_directory_counterexample :
    lookupD fastRequest.Parameters storageClassParamName ≠ "" ∧
    node1.clientset.NodesGet node1.nodeName =
      .ok { Annotations := [("hostpath.nailgun.name/fast", "/data/fast")] } ∧
    fastRequest.PVC.Annotations.lookup pvcAnnotation = none ∧
    (mntOS.MkdirAll "/mnt/data/fast/pvc-123").1 = none ∧
    (node1.Provision fastRequest mntOS).1 = .ok fastVolume ∧
    OS.madeDir mntOS (node1.Provision fastRequest mntOS).2 ["mnt", "data"] ∧
    OS.madeDir mntOS (node1.Provision fastRequest mntOS).2 ["mnt", "data", "fast"] ∧
    OS.madeDir mntOS (node1.Provision fastRequest mntOS).2 ["mnt", "data", "fast", "pvc-123"] ∧
    ¬ (∀ q, OS.madeDir mntOS (node1.Provision fastRequest mntOS).2 q ↔
        q = mntOS.resolve "/mnt/data/fast/pvc-123") := by
  refine ⟨by decide, rfl, by decide, by decide, by decide, by decide, by decide, by decide, ?_⟩
  intro hall
  have h1 := (hall ["mnt", "data"]).mp (by decide)
  revert h1
  decide

/-- C1, amended. For a request whose `hostPathName` is set, whose node lookup
succeeds with a non-empty annotation value `P` for that name, whose claim has
no `nailgun.name/hostpath-node` annotation or has it equal to the node name,
and for which `os.MkdirAll` does not fail: `Provision` succeeds; it makes
exactly one call of package `os`, `MkdirAll` on
`Join(rootPath, Join(P, PVName))`; afterwards that path is a directory and
nothing off the way to it has changed; when the path named nothing before
and its parent directory existed, exactly one directory is new, the one at
that path; and the descriptor's `nodeName` annotation is the node name, its
host-path source holds `Join(P, PVName)`. -/
theorem provision_makes_directory (p : hostPathProvisioner) (options : VolumeOptions) (os : OS)
    (node : Node) (hparam : lookupD options.Parameters storageClassParamName ≠ "")
    (hnode : p.clientset.NodesGet p.nodeName = .ok node)
    (hpath : lookupD node.Annotations
      (nodeAnnotationFormat (lookupD options.Parameters storageClassParamName)) ≠ "")
    (hpvc : options.PVC.Annotations.lookup pvcAnnotation = none ∨
      options.PVC.Annotations.lookup pvcAnnotation = some p.nodeName)
    (hmk : (os.MkdirAll (p.localPath (Join [lookupD node.Annotations
      (nodeAnnotationFormat (lookupD options.Parameters storageClassParamName)),
      options.PVName]))).1 = none) :
    ∃ pv source, (p.Provision options os).1 = .ok pv ∧
      pv.Annotations.lookup "nodeName" = some p.nodeName ∧
      pv.HostPath = some source ∧
      source.Path = Join [lookupD node.Annotations
        (nodeAnnotationFormat (lookupD options.Parameters storageClassParamName)),
        options.PVName] ∧
      (p.Provision options os).2.log = os.log ++ [Call.MkdirAll (p.localPath source.Path)] ∧
      (p.Provision options os).2.Stat (p.localPath source.Path) = some Kind.dir ∧
      (∀ q, ¬ q <+: os.resolve (p.localPath source.Path) →
        (p.Provision options os).2.tree q = os.tree q) ∧
      (os.wellFormed → os.Stat (p.localPath source.Path) = none →
        os.tree (os.resolve (p.localPath source.Path)).dropLast = some Kind.dir →
        ∀ q, OS.madeDir os (p.Provision options os).2 q ↔
          q = os.resolve (p.localPath source.Path)) := by
  have heq := provision_eq_provisionAt p options os node hparam hnode hpath hpvc
  have hok := provisionAt_ok p options _ os hmk
  refine ⟨p.pv options (Join [lookupD node.Annotations
      (nodeAnnotationFormat (lookupD options.Parameters storageClassParamName)), options.PVName]),
    ⟨Join [lookupD node.Annotations
      (nodeAnnotationFormat (lookupD options.Parameters storageClassParamName)), options.PVName]⟩,
    by rw [heq]; exact hok, ?_, rfl, rfl, ?_, ?_, ?_, ?_⟩
  · simp [hostPathProvisioner.pv]
  · rw [heq, provisionAt_state, MkdirAll_log]
  · rw [heq, provisionAt_state]
    exact MkdirAll_ok_stat os _ hmk
  · intro q hq
    rw [heq, provisionAt_state]
    exact MkdirAll_ok_off os _ hmk q hq
  · intro hwf habs hpar q
    rw [heq, provisionAt_state]
    exact MkdirAll_ok_made os _ hmk hwf habs hpar q

/-- C1 amended, at the specification's example on a machine where
`/mnt/data/fast` exists: `Provision` returns the descriptor with host path
`/data/fast/pvc-123` and the node name of `node-1`, its one call is
`os.MkdirAll` on `/mnt/data/fast/pvc-123`, which is a directory afterwards
and the only new one. -/
theorem provision_makes_directory_witness :
    (node1.Provision fastRequest fastOS).1 = .ok fastVolume ∧
    fastVolume.Annotations.lookup "nodeName" = some "node-1" ∧
    fastVolume.HostPath = some ⟨"/data/fast/pvc-123"⟩ ∧
    (node1.Provision fastRequest fastOS).2.log = [Call.MkdirAll "/mnt/data/fast/pvc-123"] ∧
    (node1.Provision fastRequest fastOS).2.Stat "/mnt/data/fast/pvc-123" = some Kind.dir ∧
    (∀ q, OS.madeDir fastOS (node1.Provision fastRequest fastOS).2 q ↔
      q = ["mnt", "data", "fast", "pvc-123"]) := by
  obtain ⟨pv, source, hpv, hann, _, hsrc, hlog, hstat, _, hmade⟩ :=
    provision_makes_directory node1 fastRequest fastOS
      { Annotations := [("hostpath.nailgun.name/fast", "/data/fast")] }
      (by decide) rfl (by decide) (Or.inl (by decide)) (by decide)
  have hval : (node1.Provision fastRequest fastOS).1 = .ok fastVolume := by decide
  have hpveq : pv = fastVolume := by
    rw [hval] at hpv
    cases hpv
    rfl
  subst hpveq
  have hpath : source.Path = "/data/fast/pvc-123" := by
    rw [hsrc]
    decide
  rw [hpath] at hlog hstat hmade
  exact ⟨hval, hann, rfl, hlog, hstat, hmade fastOS_wellFormed (by decide) (by decide)⟩

/-- C2. `Delete` on a descriptor with no `nodeName` annotation returns the
hard error of `errors.New` (not a `controller.IgnoredError`); on a descriptor
whose `nodeName` annotation differs from the provisioner's node name it
returns a `controller.IgnoredError`; in both cases the operating system is
left as it was, no call made.  A call is made only when the annotation is
present and equal to the node name, and then it is the one call
`os.RemoveAll` on `Join(rootPath, hostPath)`, `hostPath` being the path of
the descriptor's host-path source; when the descriptor has no such source,
line 137 panics and no call is made. -/
theorem delete_checks_owner (p : hostPathProvisioner) (volume : PersistentVolume) (os : OS) :
    (volume.Annotations.lookup "nodeName" = none →
      p.Delete volume os =
        (.returned (some (.errorString "nodeName annotation not found on PV")), os) ∧
      GoError.isIgnored (.errorString "nodeName annotation not found on PV") = false) ∧
    (∀ ann, volume.Annotations.lookup "nodeName" = some ann → ann ≠ p.nodeName →
      p.Delete volume os =
        (.returned (some (.IgnoredError "nodeName annotation on PV does not match ours")), os) ∧
      GoError.isIgnored (.IgnoredError "nodeName annotation on PV does not match ours") = true) ∧
    ((p.Delete volume os).2.log ≠ os.log →
      volume.Annotations.lookup "nodeName" = some p.nodeName) ∧
    (volume.Annotations.lookup "nodeName" = some p.nodeName →
      ∀ source, volume.HostPath = some source →
        (p.Delete volume os).2.log =
          os.log ++ [Call.RemoveAll (Join [p.rootPath, source.Path])]) ∧
    (volume.Annotations.lookup "nodeName" = some p.nodeName → volume.HostPath = none →
      p.Delete volume os =
        (.panicked "runtime error: invalid memory address or nil pointer dereference", os)) := by
  refine ⟨?_, ?_, ?_, ?_, ?_⟩
  · intro h
    refine ⟨?_, rfl⟩
    unfold hostPathProvisioner.Delete
    rw [h]
  · intro ann h hne
    refine ⟨?_, rfl⟩
    unfold hostPathProvisioner.Delete
    rw [h]
    simp [hne]
  · intro hlog
    cases h : volume.Annotations.lookup "nodeName" with
    | none =>
      exfalso
      apply hlog
      unfold hostPathProvisioner.Delete
      rw [h]
    | some ann =>
      by_cases hne : ann = p.nodeName
      · rw [hne]
      · exfalso
        apply hlog
        unfold hostPathProvisioner.Delete
        rw [h]
        simp [hne]
  · intro h source hsrc
    rw [delete_eq_RemoveAll p volume os source h hsrc]
    exact RemoveAll_log os _
  · intro h hsrc
    exact delete_nil_source p volume os h hsrc

/-- C2, at a descriptor without annotations and at one owned by `node-2`,
both handed to the provisioner of `node-1`. -/
theorem delete_checks_owner_witness :
    (node1.Delete { fastVolume with Annotations := [] } mntOS).1 =
      .returned (some (.errorString "nodeName annotation not found on PV")) ∧
    (node1.Delete { fastVolume with Annotations := [("nodeName", "node-2")] } mntOS).1 =
      .returned (some (.IgnoredError "nodeName annotation on PV does not match ours")) :=
  ⟨congrArg Prod.fst ((delete_checks_owner node1 _ mntOS).1 (by decide)).1,
   congrArg Prod.fst ((delete_checks_owner node1 _ mntOS).2.1 "node-2" (by decide) (by decide)).1⟩

/-- C3, as stated, fails.  `Delete` on a descriptor of this node with host
path `../etc` passes `/etc` to `os.RemoveAll`, and `Provision` for the volume
name `../../../etc` on a node whose annotation is the relative path
`data/fast` passes `/etc` to `os.MkdirAll`: with root `/mnt`, neither path is
the root or below it. -/
theorem local_paths_under_root_counterexample :
    escapeVolume.Annotations.lookup "nodeName" = some node1.nodeName ∧
    (node1.Delete escapeVolume mntOS).2.log = [Call.RemoveAll "/etc"] ∧
    (relativeNode1.Provision escapeRequest mntOS).2.log = [Call.MkdirAll "/etc"] ∧
    mntOS.resolve "/mnt" = ["mnt"] ∧ mntOS.resolve "/etc" = ["etc"] ∧
    ¬ (mntOS.resolve "/mnt" <+: mntOS.resolve "/etc") := by
  decide

/-- C3, amended. Under an absolute `rootPath`: the only path `Provision`
passes to `os.MkdirAll` is `Join(rootPath, hostPath)` with
`hostPath = Join(P, PVName)`, `P` the node annotation value, and when `P` is
absolute, or neither `P` nor `PVName` has a `..` element, the location of
that path is the location of the cleaned root followed by the elements of
the host path (the empty and `.` ones left out), which are those of `P`
followed by those of `PVName` when neither has a `..`; the only path `Delete`
passes to `os.RemoveAll` is `Join(rootPath, hostPath)`, `hostPath` being the
path of the descriptor's host-path source (without a source no call is
made), and when the host path has no `..` element, as the host paths that
`Provision` writes from an absolute `P` have none, its location is that of
the cleaned root followed by the elements of the host path.  So in these
cases the path is the root or below it.  The cleaned root is the root when
`rootPath` has no `..`. -/
theorem local_paths_under_root (p : hostPathProvisioner) (os : OS)
    (hroot : p.rootPath.data.head? = some '/') :
    (∀ (options : VolumeOptions) (node : Node), p.clientset.NodesGet p.nodeName = .ok node →
      ((lookupD node.Annotations (nodeAnnotationFormat
          (lookupD options.Parameters storageClassParamName))).data.head? = some '/' ∨
        (".." ∉ elements (lookupD node.Annotations
          (nodeAnnotationFormat (lookupD options.Parameters storageClassParamName))) ∧
        ".." ∉ elements options.PVName)) →
      ∀ c ∈ (p.Provision options os).2.log.drop os.log.length,
        c = Call.MkdirAll (p.localPath (Join [lookupD node.Annotations
          (nodeAnnotationFormat (lookupD options.Parameters storageClassParamName)),
          options.PVName])) ∧
        os.resolve c.path = os.resolve (Clean p.rootPath) ++
          realElements (Join [lookupD node.Annotations
            (nodeAnnotationFormat (lookupD options.Parameters storageClassParamName)),
            options.PVName]) ∧
        os.resolve (Clean p.rootPath) <+: os.resolve c.path) ∧
    (∀ (P name : String), P ≠ "" → ".." ∉ elements P → ".." ∉ elements name →
      realElements (Join [P, name]) = realElements P ++ realElements name) ∧
    (∀ (volume : PersistentVolume) (source : HostPathVolumeSource),
      volume.HostPath = some source → ".." ∉ elements source.Path →
      ∀ c ∈ (p.Delete volume os).2.log.drop os.log.length,
        c = Call.RemoveAll (p.localPath source.Path) ∧
        os.resolve c.path = os.resolve (Clean p.rootPath) ++ realElements source.Path ∧
        os.resolve (Clean p.rootPath) <+: os.resolve c.path) ∧
    (∀ (volume : PersistentVolume), volume.HostPath = none →
      (p.Delete volume os).2.log = os.log) ∧
    (∀ (options : VolumeOptions) (os' : OS) (pv : PersistentVolume) (node : Node),
      (p.Provision options os').1 = .ok pv → p.clientset.NodesGet p.nodeName = .ok node →
      (lookupD node.Annotations (nodeAnnotationFormat
          (lookupD options.Parameters storageClassParamName))).data.head? = some '/' →
      ∃ source, pv.HostPath = some source ∧ ".." ∉ elements source.Path) ∧
    (".." ∉ elements p.rootPath → os.resolve (Clean p.rootPath) = os.resolve p.rootPath) := by
  refine ⟨?_, ?_, ?_, ?_, ?_, resolve_Clean_noDotDot os p.rootPath hroot⟩
  · intro options node hnode hP c hc
    rcases provision_log_cases p options os with hlog | ⟨node', hnode', hPne, hlog⟩
    · rw [hlog] at hc
      simp at hc
    · have hnn : node' = node := by
        rw [hnode] at hnode'
        cases hnode'
        rfl
      subst hnn
      rw [hlog] at hc
      simp only [List.drop_left, List.mem_singleton] at hc
      subst hc
      have hj1 : ".." ∉ elements (Join [lookupD node'.Annotations
          (nodeAnnotationFormat (lookupD options.Parameters storageClassParamName)),
          options.PVName]) := by
        rcases hP with habs | ⟨h1, h2⟩
        · exact join_absolute_noDotDot _ _ habs
        · exact (join_noDotDot _ options.PVName hPne h1 h2).1
      have hres := localPath_resolve p _ os hroot hj1
      refine ⟨rfl, hres, ?_⟩
      show _ <+: os.resolve (p.localPath _)
      rw [hres]
      exact List.prefix_append _ _
  · intro P name hP h1 h2
    exact (join_noDotDot P name hP h1 h2).2
  · intro volume source hsrc hdd c hc
    rcases delete_log_cases p volume os with hlog | ⟨source', hsrc', hlog⟩
    · rw [hlog] at hc
      simp at hc
    · have hss : source' = source := by
        rw [hsrc] at hsrc'
        cases hsrc'
        rfl
      subst hss
      rw [hlog] at hc
      simp only [List.drop_left, List.mem_singleton] at hc
      subst hc
      have hres := localPath_resolve p _ os hroot hdd
      refine ⟨rfl, hres, ?_⟩
      show _ <+: os.resolve (p.localPath _)
      rw [hres]
      exact List.prefix_append _ _
  · intro volume hsrc
    rcases delete_log_cases p volume os with hlog | ⟨source', hsrc', _⟩
    · exact hlog
    · rw [hsrc] at hsrc'
      cases hsrc'
  · intro options os' pv node hprov hnode habs
    obtain ⟨node', hnode', hparam, hpath, hpvc⟩ := provision_inv p options os' pv hprov
    have hnn : node' = node := by
      rw [hnode] at hnode'
      cases hnode'
      rfl
    subst hnn
    rw [provision_eq_provisionAt p options os' node' hparam hnode hpath hpvc] at hprov
    obtain ⟨hpv, _⟩ := provisionAt_inv p options _ os' pv hprov
    rw [hpv]
    exact ⟨_, rfl, join_absolute_noDotDot _ _ habs⟩

/-- C3 amended, at the provisioner of `node-1` with root `/mnt`: the path
`Provision` creates for `fastRequest` and the path `Delete` removes for
`fastVolume` both lie at `mnt/data/fast/pvc-123`, below `mnt`; and for the
volume name `../../../etc` the path `Provision` creates lies at `mnt/etc`. -/
theorem local_paths_under_root_witness :
    node1.rootPath.data.head? = some '/' ∧
    fastOS.resolve (Clean node1.rootPath) ++ realElements (Join ["/data/fast", "pvc-123"]) =
      ["mnt", "data", "fast", "pvc-123"] ∧
    fastOS.resolve (Clean node1.rootPath) ++ realElements (Join ["/data/fast", "../../../etc"]) =
      ["mnt", "etc"] ∧
    fastVolume.HostPath = some ⟨"/data/fast/pvc-123"⟩ ∧
    volOS.resolve (Clean node1.rootPath) ++ realElements "/data/fast/pvc-123" =
      ["mnt", "data", "fast", "pvc-123"] ∧
    (∀ c ∈ (node1.Provision fastRequest fastOS).2.log.drop fastOS.log.length,
      c = Call.MkdirAll (node1.localPath (Join ["/data/fast", "pvc-123"])) ∧
      fastOS.resolve c.path =
        fastOS.resolve (Clean node1.rootPath) ++ realElements (Join ["/data/fast", "pvc-123"]) ∧
      fastOS.resolve (Clean node1.rootPath) <+: fastOS.resolve c.path) ∧
    (∀ c ∈ (node1.Provision escapeRequest fastOS).2.log.drop fastOS.log.length,
      c = Call.MkdirAll (node1.localPath (Join ["/data/fast", "../../../etc"])) ∧
      fastOS.resolve c.path =
        fastOS.resolve (Clean node1.rootPath) ++
          realElements (Join ["/data/fast", "../../../etc"]) ∧
      fastOS.resolve (Clean node1.rootPath) <+: fastOS.resolve c.path) ∧
    (∀ c ∈ (node1.Delete fastVolume volOS).2.log.drop volOS.log.length,
      c = Call.RemoveAll (node1.localPath "/data/fast/pvc-123") ∧
      volOS.resolve c.path =
        volOS.resolve (Clean node1.rootPath) ++ realElements "/data/fast/pvc-123" ∧
      volOS.resolve (Clean node1.rootPath) <+: volOS.resolve c.path) :=
  ⟨by decide, by decide, by decide, rfl, by decide,
    (local_paths_under_root node1 fastOS (by decide)).1 fastRequest
      { Annotations := [("hostpath.nailgun.name/fast", "/data/fast")] } rfl
      (Or.inr ⟨by decide, by decide⟩),
    (local_paths_under_root node1 fastOS (by decide)).1 escapeRequest
      { Annotations := [("hostpath.nailgun.name/fast", "/data/fast")] } rfl
      (Or.inl (by decide)),
    (local_paths_under_root node1 volOS (by decide)).2.2.1 fastVolume ⟨"/data/fast/pvc-123"⟩ rfl
      (by decide)⟩

/-- C4, as stated, fails: the claim of `node2Request` asks for `node-2`, the
provisioner is `node-1`, and `Provision` does not return an ignored error
(the request has no `hostPathName`, which is tested first and is a hard
error). -/
theorem provision_other_node_counterexample :
    node2Request.PVC.Annotations.lookup pvcAnnotation = some "node-2" ∧
      "node-2" ≠ node1.nodeName ∧
      ¬ ∃ e, (node1.Provision node2Request mntOS).1 = .error e ∧ e.isIgnored = true := by
  refine ⟨by decide, by decide, ?_⟩
  rintro ⟨e, he, hi⟩
  have hval : (node1.Provision node2Request mntOS).1 =
      .error (.errorString "Parameter `hostPathName` not set for PersistentVolume `pvc-123`") := by
    decide
  rw [hval] at he
  cases he
  simp [GoError.isIgnored] at hi

/-- C4, amended. When the claim carries the annotation
`nailgun.name/hostpath-node` with a value other than the provisioner's node
name, `Provision` never succeeds and leaves the operating system as it was
(no call, no directory); when moreover `hostPathName` is set and the node
lookup succeeds, the error is a `controller.IgnoredError`, and it is the one
that names the requested node when the node carries the storage annotation. -/
theorem provision_other_node (p : hostPathProvisioner) (options : VolumeOptions) (os : OS)
    (r : String) (h : options.PVC.Annotations.lookup pvcAnnotation = some r)
    (hne : r ≠ p.nodeName) :
    (∃ e, (p.Provision options os).1 = .error e) ∧
    (p.Provision options os).2 = os ∧
    (lookupD options.Parameters storageClassParamName ≠ "" →
      ∀ node, p.clientset.NodesGet p.nodeName = .ok node →
        (∃ e, (p.Provision options os).1 = .error e ∧ e.isIgnored = true) ∧
        (lookupD node.Annotations
            (nodeAnnotationFormat (lookupD options.Parameters storageClassParamName)) ≠ "" →
          (p.Provision options os).1 =
            .error (.IgnoredError ("PVC requests node `" ++ r ++ "`")))) := by
  unfold hostPathProvisioner.Provision
  dsimp only
  by_cases h1 : lookupD options.Parameters storageClassParamName = ""
  · simp [h1]
  · simp only [h1, if_false]
    cases hn : p.clientset.NodesGet p.nodeName with
    | error e => simp
    | ok node =>
      dsimp only
      by_cases h2 : lookupD node.Annotations
          (nodeAnnotationFormat (lookupD options.Parameters storageClassParamName)) = ""
      · simp [h2, GoError.isIgnored]
      · simp [h2, h, hne, GoError.isIgnored]

/-- C4 amended, at the request `fastRequest` with a claim that asks for `node-2`. -/
theorem provision_other_node_witness :
    (∃ e, (node1.Provision { fastRequest with PVC := node2Claim } mntOS).1 = .error e) ∧
    (node1.Provision { fastRequest with PVC := node2Claim } mntOS).2 = mntOS ∧
    (lookupD fastRequest.Parameters storageClassParamName ≠ "" →
      ∀ node, node1.clientset.NodesGet node1.nodeName = .ok node →
        (∃ e, (node1.Provision { fastRequest with PVC := node2Claim } mntOS).1 = .error e ∧
          e.isIgnored = true) ∧
        (lookupD node.Annotations
            (nodeAnnotationFormat (lookupD fastRequest.Parameters storageClassParamName)) ≠ "" →
          (node1.Provision { fastRequest with PVC := node2Claim } mntOS).1 =
            .error (.IgnoredError ("PVC requests node `" ++ "node-2" ++ "`")))) :=
  provision_other_node node1 { fastRequest with PVC := node2Claim } mntOS "node-2"
    (by decide) (by decide)

/-- C5. A request whose parameters lack `hostPathName`, or map it to the
empty string, is refused by `Provision` with the error of `fmt.Errorf`
(a hard error, not a `controller.IgnoredError`), and the operating system is
left as it was: no call is made and no directory is created.  Nothing is
assumed about the node, the claim or the other fields. -/
theorem provision_parameter_missing (p : hostPathProvisioner) (options : VolumeOptions) (os : OS)
    (h : options.Parameters.lookup storageClassParamName = none ∨
      options.Parameters.lookup storageClassParamName = some "") :
    p.Provision options os =
        (.error (.errorString ("Parameter `hostPathName` not set for PersistentVolume `" ++
          options.PVName ++ "`")), os) ∧
      (∀ e, (p.Provision options os).1 = .error e → e.isIgnored = false) ∧
      (p.Provision options os).2.log = os.log ∧
      (p.Provision options os).2.tree = os.tree := by
  have h0 := lookupD_eq_empty_of _ _ h
  have key : p.Provision options os =
      (.error (.errorString ("Parameter `hostPathName` not set for PersistentVolume `" ++
          options.PVName ++ "`")), os) := by
    unfold hostPathProvisioner.Provision
    simp only [h0, if_true]
    simp [storageClassParamName, String.append_assoc]
  refine ⟨key, ?_, ?_, ?_⟩
  · intro e he
    rw [key] at he
    cases he
    rfl
  · rw [key]
  · rw [key]

/-- C5, at a request with no parameters at all. -/
theorem provision_parameter_missing_witness :
    node1.Provision { fastRequest with Parameters := [] } mntOS =
        (.error (.errorString ("Parameter `hostPathName` not set for PersistentVolume `" ++
          "pvc-123" ++ "`")), mntOS) ∧
      (∀ e, (node1.Provision { fastRequest with Parameters := [] } mntOS).1 = .error e →
        e.isIgnored = false) ∧
      (node1.Provision { fastRequest with Parameters := [] } mntOS).2.log = mntOS.log ∧
      (node1.Provision { fastRequest with Parameters := [] } mntOS).2.tree = mntOS.tree :=
  provision_parameter_missing node1 { fastRequest with Parameters := [] } mntOS (Or.inl (by decide))

/-- C6, as stated, fails: the node of `bareNode1` has no annotation at all, so
it lacks the key `hostpath.nailgun.name/` followed by the (empty)
`hostPathName` of `bareRequest`, and `Provision` returns a hard error, not an
ignored one. -/
theorem provision_node_not_serving_counterexample :
    (∀ node, bareNode1.clientset.NodesGet bareNode1.nodeName = .ok node →
      node.Annotations.lookup
        (nodeAnnotationFormat (lookupD bareRequest.Parameters storageClassParamName)) = none) ∧
      ¬ ∃ e, (bareNode1.Provision bareRequest mntOS).1 = .error e ∧ e.isIgnored = true := by
  refine ⟨?_, ?_⟩
  · intro node hn
    have : node = { Annotations := [] } := by
      have h2 : (Except.ok { Annotations := [] } : Except String Node) = .ok node := hn
      cases h2
      rfl
    subst this
    decide
  · rintro ⟨e, he, hi⟩
    have hval : (bareNode1.Provision bareRequest mntOS).1 =
        .error (.errorString "Parameter `hostPathName` not set for PersistentVolume `pvc-123`") := by
      decide
    rw [hval] at he
    cases he
    simp [GoError.isIgnored] at hi

/-- C6, amended. For a request whose `hostPathName` is set and whose node
lookup succeeds: when the node's annotations lack the key
`hostpath.nailgun.name/<hostPathName>`, or map it to the empty string,
`Provision` returns a `controller.IgnoredError` and leaves the operating
system as it was (no call, no directory). -/
theorem provision_node_not_serving (p : hostPathProvisioner) (options : VolumeOptions) (os : OS)
    (node : Node) (hparam : lookupD options.Parameters storageClassParamName ≠ "")
    (hnode : p.clientset.NodesGet p.nodeName = .ok node)
    (h : node.Annotations.lookup
          (nodeAnnotationFormat (lookupD options.Parameters storageClassParamName)) = none ∨
        node.Annotations.lookup
          (nodeAnnotationFormat (lookupD options.Parameters storageClassParamName)) = some "") :
    p.Provision options os =
        (.error (.IgnoredError ("no `" ++
          nodeAnnotationFormat (lookupD options.Parameters storageClassParamName) ++
          "` annotation on this node")), os) ∧
      GoError.isIgnored (.IgnoredError ("no `" ++
          nodeAnnotationFormat (lookupD options.Parameters storageClassParamName) ++
          "` annotation on this node")) = true := by
  refine ⟨?_, rfl⟩
  have h0 := lookupD_eq_empty_of _ _ h
  unfold hostPathProvisioner.Provision
  dsimp only
  simp only [hparam, if_false, hnode, h0, if_true]

/-- C6 amended, at the specification's second example: the request
`fastRequest` on a node without the annotation for `fast`. -/
theorem provision_node_not_serving_witness :
    bareNode1.Provision fastRequest mntOS =
        (.error (.IgnoredError ("no `" ++
          nodeAnnotationFormat (lookupD fastRequest.Parameters storageClassParamName) ++
          "` annotation on this node")), mntOS) ∧
      GoError.isIgnored (.IgnoredError ("no `" ++
          nodeAnnotationFormat (lookupD fastRequest.Parameters storageClassParamName) ++
          "` annotation on this node")) = true :=
  provision_node_not_serving bareNode1 fastRequest mntOS { Annotations := [] }
    (by decide) rfl (Or.inl (by decide))

/-- C7. When `Provision` succeeds, the descriptor it returns has the
request's `PVName` as name, the request's reclaim policy, the claim's access
modes, a capacity list with the one entry `storage` holding the claim's
requested storage quantity, and as host path `Join(nodeStoragePath, PVName)`,
where `nodeStoragePath` is the node's annotation value.  That is the host
path, not the local path: the directory was made at
`Join(rootPath, hostPath)`, while `rootPath` does not enter the descriptor,
which is the same under any other root. -/
theorem provision_descriptor (p : hostPathProvisioner) (options : VolumeOptions) (os : OS)
    (pv : PersistentVolume) (h : (p.Provision options os).1 = .ok pv) :
    ∃ node, p.clientset.NodesGet p.nodeName = .ok node ∧
      pv.Name = options.PVName ∧
      pv.PersistentVolumeReclaimPolicy = options.PersistentVolumeReclaimPolicy ∧
      pv.AccessModes = options.PVC.AccessModes ∧
      pv.Capacity =
        [(ResourceStorage, (options.PVC.Requests.lookup ResourceStorage).getD default)] ∧
      pv.HostPath =
        some ⟨Join [lookupD node.Annotations
          (nodeAnnotationFormat (lookupD options.Parameters storageClassParamName)),
          options.PVName]⟩ ∧
      (p.Provision options os).2.log =
        os.log ++ [Call.MkdirAll (Join [p.rootPath, Join [lookupD node.Annotations
          (nodeAnnotationFormat (lookupD options.Parameters storageClassParamName)),
          options.PVName]])] ∧
      ∀ (root' : String) (os' : OS) (pv' : PersistentVolume),
        (hostPathProvisioner.Provision { p with rootPath := root' } options os').1 = .ok pv' →
        pv' = pv := by
  obtain ⟨node, hnode, hparam, hpath, hpvc⟩ := provision_inv p options os pv h
  have heq := provision_eq_provisionAt p options os node hparam hnode hpath hpvc
  rw [heq] at h ⊢
  obtain ⟨hpv, _⟩ := provisionAt_inv p options _ os pv h
  refine ⟨node, hnode, ?_⟩
  rw [provisionAt_state, MkdirAll_log, hpv]
  refine ⟨rfl, rfl, rfl, rfl, rfl, rfl, ?_⟩
  intro root' os' pv' h'
  obtain ⟨node', hnode', hparam', hpath', hpvc'⟩ :=
    provision_inv { p with rootPath := root' } options os' pv' h'
  have hnn : node' = node := by
    have h2 : p.clientset.NodesGet p.nodeName = .ok node' := hnode'
    rw [hnode] at h2
    cases h2
    rfl
  subst hnn
  have heq' := provision_eq_provisionAt { p with rootPath := root' } options os' node'
    hparam' hnode' hpath' hpvc'
  rw [heq'] at h'
  obtain ⟨hpv', _⟩ := provisionAt_inv { p with rootPath := root' } options _ os' pv' h'
  rw [hpv']
  rfl

/-- C7, at the specification's example: the descriptor carries the host path
`/data/fast/pvc-123`, not the local path `/mnt/data/fast/pvc-123`. -/
theorem provision_descriptor_witness :
    (node1.Provision fastRequest mntOS).1 = .ok fastVolume ∧
    fastVolume.HostPath = some ⟨"/data/fast/pvc-123"⟩ ∧
    (node1.Provision fastRequest mntOS).2.log = [Call.MkdirAll "/mnt/data/fast/pvc-123"] ∧
    ∃ node, node1.clientset.NodesGet node1.nodeName = .ok node ∧
      fastVolume.Name = fastRequest.PVName ∧
      fastVolume.PersistentVolumeReclaimPolicy = fastRequest.PersistentVolumeReclaimPolicy ∧
      fastVolume.AccessModes = fastRequest.PVC.AccessModes ∧
      fastVolume.Capacity =
        [(ResourceStorage, (fastRequest.PVC.Requests.lookup ResourceStorage).getD default)] ∧
      fastVolume.HostPath =
        some ⟨Join [lookupD node.Annotations
          (nodeAnnotationFormat (lookupD fastRequest.Parameters storageClassParamName)),
          fastRequest.PVName]⟩ ∧
      (node1.Provision fastRequest mntOS).2.log =
        mntOS.log ++ [Call.MkdirAll (Join [node1.rootPath, Join [lookupD node.Annotations
          (nodeAnnotationFormat (lookupD fastRequest.Parameters storageClassParamName)),
          fastRequest.PVName]])] ∧
      ∀ (root' : String) (os' : OS) (pv' : PersistentVolume),
        (hostPathProvisioner.Provision { node1 with rootPath := root' } fastRequest os').1 =
          .ok pv' →
        pv' = fastVolume :=
  ⟨by decide, by decide, by decide,
    provision_descriptor node1 fastRequest mntOS fastVolume (by decide)⟩

/-- C8, as stated, fails: on a machine where only `/mnt` exists, `Provision`
of `fastRequest` succeeds and `Delete` of the returned descriptor succeeds,
but the tree is not the one before: `/mnt/data` and `/mnt/data/fast`, made
by `os.MkdirAll`, are still there. -/
theorem provision_delete_counterexample :
    (node1.Provision fastRequest mntOS).1 = .ok fastVolume ∧
    (node1.Delete fastVolume (node1.Provision fastRequest mntOS).2).1 = .returned none ∧
    mntOS.tree ["mnt", "data"] = none ∧
    (node1.Delete fastVolume (node1.Provision fastRequest mntOS).2).2.tree ["mnt", "data"] =
      some Kind.dir ∧
    (node1.Delete fastVolume (node1.Provision fastRequest mntOS).2).2.tree ≠ mntOS.tree := by
  refine ⟨by decide, by decide, by decide, by decide, ?_⟩
  intro h
  have h2 := congrFun h ["mnt", "data"]
  revert h2
  decide

/-- C8, amended. For a request on which `Provision` succeeds, the returned
descriptor has a host-path source, and on a well-formed tree in which the
volume's local path named nothing before the call while its parent directory
existed: `Delete` of the returned descriptor, run on the state `Provision`
left, succeeds and leaves the tree it had before `Provision`, with nothing at
the local path. -/
theorem provision_delete_restores (p : hostPathProvisioner) (options : VolumeOptions) (os : OS)
    (pv : PersistentVolume) (hprov : (p.Provision options os).1 = .ok pv)
    (hwf : os.wellFormed) :
    ∃ source, pv.HostPath = some source ∧
      (os.tree (os.resolve (p.localPath source.Path)) = none →
        os.tree (os.resolve (p.localPath source.Path)).dropLast = some Kind.dir →
        (p.Delete pv (p.Provision options os).2).1 = .returned none ∧
        (p.Delete pv (p.Provision options os).2).2.tree = os.tree ∧
        (p.Delete pv (p.Provision options os).2).2.Stat (p.localPath source.Path) = none) := by
  obtain ⟨node, hnode, hparam, hpath, hpvc⟩ := provision_inv p options os pv hprov
  have heq := provision_eq_provisionAt p options os node hparam hnode hpath hpvc
  rw [heq] at hprov
  obtain ⟨hpv, hmk⟩ := provisionAt_inv p options _ os pv hprov
  have hsrc : pv.HostPath = some ⟨Join [lookupD node.Annotations
      (nodeAnnotationFormat (lookupD options.Parameters storageClassParamName)),
      options.PVName]⟩ := by rw [hpv]; rfl
  have hann : pv.Annotations.lookup "nodeName" = some p.nodeName := by
    rw [hpv]; simp [hostPathProvisioner.pv]
  refine ⟨_, hsrc, ?_⟩
  intro habs hpar
  have hne := (MkdirAll_ok os _ hmk).1
  have hdel : undeletable (p.localPath (Join [lookupD node.Annotations
      (nodeAnnotationFormat (lookupD options.Parameters storageClassParamName)),
      options.PVName])) = false := by
    by_contra hu
    have hpre := Join_undeletable os _ hne (by simpa using hu)
    have hdir := wellFormed_on_the_way os hwf _ _ hwf.1 hpre
    rw [habs] at hdir
    cases hdir
  have hround := MkdirAll_RemoveAll_restores os _ hmk hwf habs hpar hdel
  rw [heq, provisionAt_state, delete_eq_RemoveAll p pv _ _ hann hsrc]
  exact ⟨by rw [hround.1], hround.2, RemoveAll_ok_stat _ _ hround.1⟩

/-- C8 amended, at the specification's example on a machine where
`/mnt/data/fast` exists and `/mnt/data/fast/pvc-123` does not. -/
theorem provision_delete_restores_witness :
    (node1.Provision fastRequest fastOS).1 = .ok fastVolume ∧
    fastVolume.HostPath = some ⟨"/data/fast/pvc-123"⟩ ∧
    (node1.Delete fastVolume (node1.Provision fastRequest fastOS).2).1 = .returned none ∧
    (node1.Delete fastVolume (node1.Provision fastRequest fastOS).2).2.tree = fastOS.tree ∧
    (node1.Delete fastVolume (node1.Provision fastRequest fastOS).2).2.Stat
      (node1.localPath "/data/fast/pvc-123") = none := by
  obtain ⟨source, hsrc, h⟩ :=
    provision_delete_restores node1 fastRequest fastOS fastVolume (by decide) fastOS_wellFormed
  have hs : source = ⟨"/data/fast/pvc-123"⟩ := by
    have h0 : some (⟨"/data/fast/pvc-123"⟩ : HostPathVolumeSource) = some source := hsrc
    cases h0
    rfl
  subst hs
  exact ⟨by decide, rfl, h (by decide) (by decide)⟩

/-- C9, as stated, fails.  The descriptor `fastVolume` carries the node name
of `node1`; on a machine where `/mnt/data` is a regular file nothing is at its
local path, and `Delete` returns the error of `os.RemoveAll`, not success.
The descriptor `dotVolume` carries the node name of `dotNode1`, whose root is
`.`; its local path is `.`, the working directory, which exists: `Delete`
returns the error of `os.RemoveAll`, and the directory and what is below it
are still there.  And `Delete` of the owned descriptor `bareVolume`, which
has no host-path source, does not return at all. -/
theorem delete_own_volume_counterexample :
    fastVolume.Annotations.lookup "nodeName" = some node1.nodeName ∧
    fastVolume.HostPath = some ⟨"/data/fast/pvc-123"⟩ ∧
    node1.localPath "/data/fast/pvc-123" = "/mnt/data/fast/pvc-123" ∧
    fileOS.Stat "/mnt/data/fast/pvc-123" = none ∧
    (node1.Delete fastVolume fileOS).1 =
      .returned (some (.PathError "open" "/mnt/data/fast" "ENOTDIR")) ∧
    (node1.Delete fastVolume fileOS).1 ≠ .returned none ∧
    dotVolume.Annotations.lookup "nodeName" = some dotNode1.nodeName ∧
    dotVolume.HostPath = some ⟨"."⟩ ∧
    dotNode1.localPath "." = "." ∧
    dataOS.Stat "." = some Kind.dir ∧
    (dotNode1.Delete dotVolume dataOS).1 =
      .returned (some (.PathError "RemoveAll" "." "EINVAL")) ∧
    (dotNode1.Delete dotVolume dataOS).1 ≠ .returned none ∧
    (dotNode1.Delete dotVolume dataOS).2.Stat "." = some Kind.dir ∧
    (dotNode1.Delete dotVolume dataOS).2.Stat "fast/pvc-123" = some Kind.dir ∧
    bareVolume.Annotations.lookup "nodeName" = some node1.nodeName ∧
    (node1.Delete bareVolume volOS).1 =
      .panicked "runtime error: invalid memory address or nil pointer dereference" := by
  decide

/-- C9, amended. For a descriptor with a host-path source whose `nodeName`
annotation equals the provisioner's node name, `Delete` makes the one call
`os.RemoveAll` on `Join(rootPath, hostPath)` and returns what that call
returns.  On a well-formed tree, when the path names nothing and no regular
file stands on the way to it, the call succeeds and the tree stays as it is.
When something is at the path, no regular file stands on the way, the device
has no fault and the last element of the path is a name, the call succeeds.
Whenever the call does not fail, `Delete` returns success, nothing is left at
or below the path and the rest of the tree is untouched; a second `Delete`
with the same descriptor then succeeds too and leaves the tree as the first
one left it. -/
theorem delete_own_volume (p : hostPathProvisioner) (volume : PersistentVolume) (os : OS)
    (source : HostPathVolumeSource)
    (hann : volume.Annotations.lookup "nodeName" = some p.nodeName)
    (hsrc : volume.HostPath = some source) :
    (p.Delete volume os).2.log = os.log ++ [Call.RemoveAll (p.localPath source.Path)] ∧
    (p.Delete volume os).1 = .returned (os.RemoveAll (p.localPath source.Path)).1 ∧
    (os.wellFormed → os.Stat (p.localPath source.Path) = none →
      os.blocked (p.localPath source.Path) = false →
      (p.Delete volume os).1 = .returned none ∧ (p.Delete volume os).2.tree = os.tree) ∧
    (os.Stat (p.localPath source.Path) ≠ none → os.blocked (p.localPath source.Path) = false →
      os.fault = none → undeletable (p.localPath source.Path) = false →
      (p.Delete volume os).1 = .returned none) ∧
    ((os.RemoveAll (p.localPath source.Path)).1 = none →
      (p.Delete volume os).1 = .returned none ∧
      (p.Delete volume os).2.Stat (p.localPath source.Path) = none ∧
      (os.Stat (p.localPath source.Path) ≠ none → ∀ q,
        (p.Delete volume os).2.tree q =
          if (os.resolve (p.localPath source.Path)).isPrefixOf q then none else os.tree q) ∧
      (p.Delete volume (p.Delete volume os).2).1 = .returned none ∧
      (p.Delete volume (p.Delete volume os).2).2.tree = (p.Delete volume os).2.tree) := by
  have heq := delete_eq_RemoveAll p volume os source hann hsrc
  refine ⟨?_, by rw [heq], ?_, ?_, ?_⟩
  · rw [heq, RemoveAll_log]
  · intro hwf hs hb
    have habs : p.localPath source.Path = "" ∨ (endsWithDot (p.localPath source.Path) = false ∧
        os.blocked (p.localPath source.Path) = false ∧
        os.tree (os.resolve (p.localPath source.Path)) = none) := by
      by_cases h0 : p.localPath source.Path = ""
      · exact Or.inl h0
      · right
        unfold OS.Stat at hs
        rw [if_neg h0] at hs
        refine ⟨?_, hb, hs⟩
        by_contra hd
        have hu := endsWithDot_undeletable _ (by simpa using hd)
        have hpre := Join_undeletable os _ h0 hu
        have hdir := wellFormed_on_the_way os hwf _ _ hwf.1 hpre
        rw [hs] at hdir
        cases hdir
    rw [heq, RemoveAll_eq_absent os _ habs]
    exact ⟨rfl, rfl⟩
  · intro hs hb hf hu
    have h0 : p.localPath source.Path ≠ "" := by
      intro h0
      apply hs
      unfold OS.Stat
      rw [if_pos h0]
    unfold OS.Stat at hs
    rw [if_neg h0] at hs
    obtain ⟨kd, hkd⟩ := Option.ne_none_iff_exists'.mp hs
    have hdot : endsWithDot (p.localPath source.Path) = false := by
      by_contra hd
      rw [endsWithDot_undeletable _ (by simpa using hd)] at hu
      cases hu
    obtain ⟨e, he, he1, he2⟩ := undeletable_false _ hu
    rw [heq, RemoveAll_eq_removed os _ kd e h0 hdot hb hkd hf he he1 he2]
  · intro hok
    have h2 := delete_eq_RemoveAll p volume (os.RemoveAll (p.localPath source.Path)).2 source
      hann hsrc
    have htwice := RemoveAll_twice os _ hok
    refine ⟨by rw [heq, hok], by rw [heq]; exact RemoveAll_ok_stat os _ hok, ?_, ?_, ?_⟩
    · intro hs q
      rw [heq]
      exact (RemoveAll_ok_tree os _ hok).2 hs q
    · rw [heq, h2, htwice.1]
    · rw [heq, h2]
      exact htwice.2

/-- C9 amended, at the descriptor `fastVolume`: on a machine where its
directory exists the first `Delete` removes it and the second finds nothing;
on a machine where the directory is absent `Delete` succeeds and changes
nothing. -/
theorem delete_own_volume_witness :
    (node1.Delete fastVolume volOS).1 = .returned none ∧
    volOS.Stat "/mnt/data/fast/pvc-123" = some Kind.dir ∧
    (node1.Delete fastVolume volOS).2.Stat "/mnt/data/fast/pvc-123" = none ∧
    (node1.Delete fastVolume volOS).2.log = volOS.log ++ [Call.RemoveAll "/mnt/data/fast/pvc-123"] ∧
    (node1.Delete fastVolume (node1.Delete fastVolume volOS).2).1 = .returned none ∧
    fastOS.Stat "/mnt/data/fast/pvc-123" = none ∧
    (node1.Delete fastVolume fastOS).1 = .returned none ∧
    (node1.Delete fastVolume fastOS).2.tree = fastOS.tree :=
  ⟨(delete_own_volume node1 fastVolume volOS ⟨"/data/fast/pvc-123"⟩ (by decide) rfl).2.2.2.1
      (by decide) (by decide) (by decide) (by decide),
    by decide, by decide,
    (delete_own_volume node1 fastVolume volOS ⟨"/data/fast/pvc-123"⟩ (by decide) rfl).1,
    ((delete_own_volume node1 fastVolume volOS ⟨"/data/fast/pvc-123"⟩ (by decide) rfl).2.2.2.2
      (by decide)).2.2.2.1,
    by decide,
    ((delete_own_volume node1 fastVolume fastOS ⟨"/data/fast/pvc-123"⟩ (by decide) rfl).2.2.1
      fastOS_wellFormed (by decide) (by decide)).1,
    ((delete_own_volume node1 fastVolume fastOS ⟨"/data/fast/pvc-123"⟩ (by decide) rfl).2.2.1
      fastOS_wellFormed (by decide) (by decide)).2⟩

/-- C10. The test of `main` at server version 2.0, which is not older than
1.5 (its major number is greater than 1): the program stops with
"Unsupported server version". -/
theorem server_version_two_zero_rejected :
    serverVersionSupported 2 0 = false ∧ ((2 : Int) > 1 ∨ ((2 : Int) = 1 ∧ (0 : Int) ≥ 5)) := by
  decide

end HostPath
